import Mathlib

/-!
Verification development for the api-endpoint-hunter crawler.

Python source is shallowly embedded over `List Char` strings:
pure helpers become Lean functions, the interceptor / crawler loops become
explicit state-passing step functions, machine hashing (MD5) is implemented
over `Nat` bytes with explicit reduction modulo 2^32.
-/

namespace Hunter

abbrev Str := List Char

def lowerCh (c : Char) : Char := c.toLower

def upperCh (c : Char) : Char := c.toUpper

def lowerStr (s : Str) : Str := s.map lowerCh

def upperStr (s : Str) : Str := s.map upperCh

/-- Split at the first occurrence of `sep`; mirrors Python `s.split(sep, 1)`.
Returns the part before the separator, and `some rest` when the separator occurs. -/
def splitFirst (sep : Char) : Str → Str × Option Str
  | [] => ([], none)
  | c :: cs =>
      if c = sep then ([], some cs)
      else
        match splitFirst sep cs with
        | (pre, rest) => (c :: pre, rest)

/-- Split at every occurrence of `sep`; mirrors Python `s.split(sep)`
(always nonempty, keeps empty fields). -/
def splitAll (sep : Char) : Str → List Str
  | [] => [[]]
  | c :: cs =>
      if c = sep then [] :: splitAll sep cs
      else
        match splitAll sep cs with
        | [] => [[c]]
        | s :: rest => (c :: s) :: rest

/-- Mirrors Python `sep.join(parts)` for a one-character separator. -/
def joinWith (sep : Char) : List Str → Str
  | [] => []
  | [s] => s
  | s :: rest => s ++ sep :: joinWith sep rest

/-- Mirrors Python `s.rstrip("/")`: drop every trailing slash. -/
def rstripSlash (s : Str) : Str := (s.reverse.dropWhile (fun c => c = '/')).reverse

/-- Code-point lexicographic order on strings, as used by Python `sorted`. -/
def lexLe : Str → Str → Bool
  | [], _ => true
  | _ :: _, [] => false
  | a :: xs, b :: ys => if a = b then lexLe xs ys else decide (a < b)

def insSorted (le : α → α → Bool) (x : α) : List α → List α
  | [] => [x]
  | y :: ys => if le x y then x :: y :: ys else y :: insSorted le x ys

def insSort (le : α → α → Bool) : List α → List α
  | [] => []
  | x :: xs => insSorted le x (insSort le xs)

/-- Deduplicate keeping the first occurrence of each element. -/
def dedupFirst [DecidableEq α] : List α → List α
  | [] => []
  | x :: xs => x :: dedupFirst (xs.filter (fun y => decide (y ≠ x)))
termination_by l => l.length
decreasing_by
  simp only [List.length_cons]
  exact Nat.lt_succ_of_le (List.length_filter_le _ _)

/-- Mirrors Python `needle in hay` for strings. -/
def strContains (hay needle : Str) : Bool :=
  hay.tails.any (fun t => needle.isPrefixOf t)

/-! ## MD5 over byte lists (`hashlib.md5`), with arithmetic on `Nat` mod 2^32 -/

def m32 : Nat := 4294967296

def mask32 (x : Nat) : Nat := x % m32

def not32 (x : Nat) : Nat := x ^^^ 4294967295

def rotl32 (x s : Nat) : Nat := mask32 ((x <<< s) ||| (x >>> (32 - s)))

def md5K : List Nat :=
  [0xd76aa478, 0xe8c7b756, 0x242070db, 0xc1bdceee,
   0xf57c0faf, 0x4787c62a, 0xa8304613, 0xfd469501,
   0x698098d8, 0x8b44f7af, 0xffff5bb1, 0x895cd7be,
   0x6b901122, 0xfd987193, 0xa679438e, 0x49b40821,
   0xf61e2562, 0xc040b340, 0x265e5a51, 0xe9b6c7aa,
   0xd62f105d, 0x02441453, 0xd8a1e681, 0xe7d3fbc8,
   0x21e1cde6, 0xc33707d6, 0xf4d50d87, 0x455a14ed,
   0xa9e3e905, 0xfcefa3f8, 0x676f02d9, 0x8d2a4c8a,
   0xfffa3942, 0x8771f681, 0x6d9d6122, 0xfde5380c,
   0xa4beea44, 0x4bdecfa9, 0xf6bb4b60, 0xbebfbc70,
   0x289b7ec6, 0xeaa127fa, 0xd4ef3085, 0x04881d05,
   0xd9d4d039, 0xe6db99e5, 0x1fa27cf8, 0xc4ac5665,
   0xf4292244, 0x432aff97, 0xab9423a7, 0xfc93a039,
   0x655b59c3, 0x8f0ccc92, 0xffeff47d, 0x85845dd1,
   0x6fa87e4f, 0xfe2ce6e0, 0xa3014314, 0x4e0811a1,
   0xf7537e82, 0xbd3af235, 0x2ad7d2bb, 0xeb86d391]

def md5S : List Nat :=
  [7, 12, 17, 22, 7, 12, 17, 22, 7, 12, 17, 22, 7, 12, 17, 22,
   5, 9, 14, 20, 5, 9, 14, 20, 5, 9, 14, 20, 5, 9, 14, 20,
   4, 11, 16, 23, 4, 11, 16, 23, 4, 11, 16, 23, 4, 11, 16, 23,
   6, 10, 15, 21, 6, 10, 15, 21, 6, 10, 15, 21, 6, 10, 15, 21]

def md5F (i b c d : Nat) : Nat :=
  if i < 16 then (b &&& c) ||| (not32 b &&& d)
  else if i < 32 then (d &&& b) ||| (not32 d &&& c)
  else if i < 48 then b ^^^ c ^^^ d
  else c ^^^ (b ||| not32 d)

def md5G (i : Nat) : Nat :=
  if i < 16 then i
  else if i < 32 then (5 * i + 1) % 16
  else if i < 48 then (3 * i + 5) % 16
  else (7 * i) % 16

def md5Step (M : List Nat) (st : Nat × Nat × Nat × Nat) (i : Nat) : Nat × Nat × Nat × Nat :=
  let a := st.1
  let b := st.2.1
  let c := st.2.2.1
  let d := st.2.2.2
  let f := mask32 (md5F i b c d + a + md5K.getD i 0 + M.getD (md5G i) 0)
  (d, mask32 (b + rotl32 f (md5S.getD i 0)), b, c)

def leWord (b0 b1 b2 b3 : Nat) : Nat := b0 + 256 * b1 + 65536 * b2 + 16777216 * b3

def toWords : List Nat → List Nat
  | b0 :: b1 :: b2 :: b3 :: rest => leWord b0 b1 b2 b3 :: toWords rest
  | _ => []

def wordBytes (w : Nat) : List Nat :=
  [w % 256, w / 256 % 256, w / 65536 % 256, w / 16777216 % 256]

def le64 (n : Nat) : List Nat :=
  [n % 256, n / 2 ^ 8 % 256, n / 2 ^ 16 % 256, n / 2 ^ 24 % 256,
   n / 2 ^ 32 % 256, n / 2 ^ 40 % 256, n / 2 ^ 48 % 256, n / 2 ^ 56 % 256]

def md5PadBytes (len : Nat) : List Nat :=
  0x80 :: List.replicate ((119 - len % 64) % 64) 0 ++ le64 (len * 8 % 2 ^ 64)

def chunksAux : Nat → List Nat → List (List Nat)
  | 0, _ => []
  | _ + 1, [] => []
  | n + 1, l => l.take 64 :: chunksAux n (l.drop 64)

def md5Chunk (st : Nat × Nat × Nat × Nat) (chunk : List Nat) : Nat × Nat × Nat × Nat :=
  let M := toWords chunk
  let r := (List.range 64).foldl (md5Step M) st
  (mask32 (st.1 + r.1), mask32 (st.2.1 + r.2.1),
   mask32 (st.2.2.1 + r.2.2.1), mask32 (st.2.2.2 + r.2.2.2))

def md5Bytes (msg : List Nat) : List Nat :=
  let padded := msg ++ md5PadBytes msg.length
  let st := (chunksAux padded.length padded).foldl md5Chunk
    (0x67452301, 0xefcdab89, 0x98badcfe, 0x10325476)
  wordBytes st.1 ++ wordBytes st.2.1 ++ wordBytes st.2.2.1 ++ wordBytes st.2.2.2

def hexDigit (n : Nat) : Char := "0123456789abcdef".data.getD n '0'

def byteHex (b : Nat) : Str := [hexDigit (b / 16), hexDigit (b % 16)]

/-- `hashlib.md5(msg).hexdigest()`. -/
def md5Hex (msg : List Nat) : Str := ((md5Bytes msg).map byteHex).flatten

/-- UTF-8 bytes of one character (Python `str.encode()` of a code point). -/
def utf8Char (c : Char) : List Nat :=
  let n := c.toNat
  if n < 0x80 then [n]
  else if n < 0x800 then [0xC0 + n / 64, 0x80 + n % 64]
  else if n < 0x10000 then [0xE0 + n / 4096, 0x80 + n / 64 % 64, 0x80 + n % 64]
  else [0xF0 + n / 0x40000, 0x80 + n / 4096 % 64, 0x80 + n / 64 % 64, 0x80 + n % 64]

/-- `str.encode()`: UTF-8 bytes of a string. -/
def utf8 (s : Str) : List Nat := (s.map utf8Char).flatten

/-! ## The used fragment of `urllib.parse`: urlsplit, urlparse, parse_qs -/

def isSchemeChar (c : Char) : Bool :=
  c.isAlpha || c.isDigit || c = '+' || c = '-' || c = '.'

/-- Scheme detection of `urllib.parse.urlsplit`: `prefix:` where the first
character is an ASCII letter and all are scheme characters. -/
def schemeSplit (u : Str) : Str × Str :=
  match splitFirst ':' u with
  | (pre, some rest) =>
      if !pre.isEmpty && (pre.headD 'a').isAlpha && pre.all isSchemeChar then (lowerStr pre, rest)
      else ([], u)
  | (_, none) => ([], u)

def netlocDelim (c : Char) : Bool := c = '/' || c = '?' || c = '#'

/-- `urllib.parse._splitnetloc`: after a leading `//`, the netloc runs to the
next `/`, `?` or `#`. -/
def netlocSplit : Str → Str × Str
  | '/' :: '/' :: rest =>
      (rest.takeWhile (fun c => !netlocDelim c), rest.dropWhile (fun c => !netlocDelim c))
  | u => ([], u)

structure SplitRes where
  scheme : Str
  netloc : Str
  pathRaw : Str
  query : Str
  fragment : Str
deriving DecidableEq

/-- `urllib.parse.urlsplit` (without control-character stripping or netloc
validation, which raise on malformed input). An absent query or fragment is
represented by the empty string, exactly as `SplitResult` does. -/
def pyUrlsplit (u : Str) : SplitRes :=
  let sr := schemeSplit u
  let nr := netlocSplit sr.2
  let fr := splitFirst '#' nr.2
  let qr := splitFirst '?' fr.1
  ⟨sr.1, nr.1, qr.1, qr.2.getD [], fr.2.getD []⟩

/-- `urllib.parse._splitparams`: split `;params` off the last path segment. -/
def splitParams (p : Str) : Str × Str :=
  if '/' ∈ p then
    let segLen := (p.reverse.takeWhile (fun c => c ≠ '/')).length
    let pre := p.take (p.length - segLen)
    let seg := p.drop (p.length - segLen)
    match splitFirst ';' seg with
    | (a, some b) => (pre ++ a, b)
    | (_, none) => (p, [])
  else
    match splitFirst ';' p with
    | (a, some b) => (a, b)
    | (_, none) => (p, [])

structure ParseRes where
  scheme : Str
  netloc : Str
  path : Str
  params : Str
  query : Str
  fragment : Str
deriving DecidableEq

/-- `urllib.parse.urlparse`. -/
def pyUrlparse (u : Str) : ParseRes :=
  let s := pyUrlsplit u
  if ';' ∈ s.pathRaw then
    let pr := splitParams s.pathRaw
    ⟨s.scheme, s.netloc, pr.1, pr.2, s.query, s.fragment⟩
  else ⟨s.scheme, s.netloc, s.pathRaw, [], s.query, s.fragment⟩

def isHexCh (c : Char) : Bool :=
  c.isDigit || ('a' ≤ c && c ≤ 'f') || ('A' ≤ c && c ≤ 'F')

def hexVal (c : Char) : Nat :=
  if c.isDigit then c.toNat - 48
  else if 'a' ≤ c ∧ c ≤ 'f' then c.toNat - 87
  else c.toNat - 55

/-- `urllib.parse.unquote_plus`, decoding percent escapes byte-per-char
(multi-byte UTF-8 escape sequences are decoded byte-wise). -/
def unquotePlus : Str → Str
  | [] => []
  | '%' :: h1 :: h2 :: rest =>
      if isHexCh h1 && isHexCh h2 then Char.ofNat (16 * hexVal h1 + hexVal h2) :: unquotePlus rest
      else '%' :: unquotePlus (h1 :: h2 :: rest)
  | '+' :: rest => ' ' :: unquotePlus rest
  | c :: rest => c :: unquotePlus rest

/-- `urllib.parse.parse_qsl` with the default `keep_blank_values=False`:
empty fields, fields without `=` and fields with an empty value are dropped. -/
def parseQsl (q : Str) : List (Str × Str) :=
  (splitAll '&' q).filterMap fun field =>
    if field.isEmpty then none
    else
      match splitFirst '=' field with
      | (_, none) => none
      | (name, some value) =>
          if value.isEmpty then none
          else some (unquotePlus name, unquotePlus value)

def qsInsert (k v : Str) : List (Str × List Str) → List (Str × List Str)
  | [] => [(k, [v])]
  | (k2, vs) :: rest => if k2 = k then (k2, vs ++ [v]) :: rest else (k2, vs) :: qsInsert k v rest

/-- `urllib.parse.parse_qs`: key -> list of values, keys in insertion order. -/
def parseQs (q : Str) : List (Str × List Str) :=
  (parseQsl q).foldl (fun acc kv => qsInsert kv.1 kv.2 acc) []

def parseQsKeys (q : Str) : List Str := (parseQs q).map (fun kv => kv.1)

/-! ## models.py -/

inductive HttpMethod
  | GET | POST | PUT | PATCH | DELETE | HEAD | OPTIONS
deriving DecidableEq

def HttpMethod.value : HttpMethod → Str
  | .GET => "GET".data
  | .POST => "POST".data
  | .PUT => "PUT".data
  | .PATCH => "PATCH".data
  | .DELETE => "DELETE".data
  | .HEAD => "HEAD".data
  | .OPTIONS => "OPTIONS".data

/-- `HttpMethod(s)` construction: `some m` when `s` is a valid member value. -/
def methodOfStr (s : Str) : Option HttpMethod :=
  if s = "GET".data then some .GET
  else if s = "POST".data then some .POST
  else if s = "PUT".data then some .PUT
  else if s = "PATCH".data then some .PATCH
  else if s = "DELETE".data then some .DELETE
  else if s = "HEAD".data then some .HEAD
  else if s = "OPTIONS".data then some .OPTIONS
  else none

/-- `re.match(r'^\d+$', part)` over ASCII digits. -/
def isDigitSeg (s : Str) : Bool := !s.isEmpty && s.all Char.isDigit

/-- The canonical-UUID segment pattern `[0-9a-f]{8}-...-[0-9a-f]{12}` with `re.I`. -/
def isUuidSeg (s : Str) : Bool :=
  decide ((splitAll '-' s).map List.length = [8, 4, 4, 4, 12]) &&
    s.all (fun c => c = '-' || isHexCh c)

/-- The MongoDB ObjectId segment pattern `[0-9a-f]{24}` with `re.I`. -/
def isHex24Seg (s : Str) : Bool := decide (s.length = 24) && s.all isHexCh

def isIdSeg (s : Str) : Bool := isUuidSeg s || isDigitSeg s || isHex24Seg s

def idToken : Str := "{id}".data

def normSeg (s : Str) : Str := if isIdSeg s then idToken else s

/-- `CapturedEndpoint._normalize_path`: replace UUID, numeric and 24-hex path
segments by the `\x7bid\x7d` placeholder. -/
def normalizePath (p : Str) : Str := joinWith '/' ((splitAll '/' p).map normSeg)

structure CapturedRequest where
  url : Str
  method : HttpMethod
  headers : List (Str × Str)
  body : Option Str
deriving DecidableEq

structure CapturedResponse where
  status : Nat
  headers : List (Str × Str)
  body : Option Str
deriving DecidableEq

structure CapturedEndpoint where
  request : CapturedRequest
  response : CapturedResponse
  sourcePage : Str
deriving DecidableEq

/-- `CapturedRequest.parsed_url["path"]`. -/
def urlPath (u : Str) : Str := (pyUrlparse u).path

/-- `CapturedEndpoint.endpoint_id`: the first 12 hex characters of the MD5 of
`"{method}:{normalized path}"`. -/
def endpointId (e : CapturedEndpoint) : Str :=
  let normalized := normalizePath (urlPath e.request.url)
  (md5Hex (utf8 (e.request.method.value ++ ':' :: normalized))).take 12

inductive ContentType
  | JSON | FORM | MULTIPART | XML | TEXT | HTML | UNKNOWN
deriving DecidableEq

/-- Python `dict.get(k, "")` on a header map. -/
def headerGet (hs : List (Str × Str)) (k : Str) : Str :=
  match hs.find? (fun kv => decide (kv.1 = k)) with
  | some kv => kv.2
  | none => []

/-- `CapturedResponse.content_type`. -/
def responseContentType (r : CapturedResponse) : ContentType :=
  let ct := lowerStr (headerGet r.headers "content-type".data)
  if strContains ct "json".data then .JSON
  else if strContains ct "xml".data then .XML
  else if strContains ct "html".data then .HTML
  else if strContains ct "text".data then .TEXT
  else .UNKNOWN

/-! ## crawler.py -/

structure CrawlConfig where
  startUrl : Str
  maxPages : Nat
  maxDepth : Nat
deriving DecidableEq

/-- `Crawler._normalize_url`: scheme://netloc+path, query tokens sorted, all
trailing slashes stripped. -/
def normalizeUrl (u : Str) : Str :=
  let p := pyUrlparse u
  let base := p.scheme ++ ':' :: '/' :: '/' :: (p.netloc ++ p.path)
  let withQ :=
    if p.query.isEmpty then base
    else base ++ '?' :: joinWith '&' (insSort lexLe (splitAll '&' p.query))
  rstripSlash withQ

def skipExtensions : List Str :=
  [".png", ".jpg", ".jpeg", ".gif", ".svg", ".ico",
   ".css", ".js", ".woff", ".woff2", ".ttf", ".eot",
   ".pdf", ".zip", ".tar", ".gz", ".mp4", ".mp3"].map String.data

/-- `Crawler._is_same_origin` (the base domain is fixed from the start URL). -/
def isSameOrigin (baseDomain : Str) (u : Str) : Bool :=
  decide ((pyUrlparse u).netloc = baseDomain)

/-- `Crawler._should_visit`. -/
def shouldVisit (baseDomain : Str) (visited : List Str) (u : Str) : Bool :=
  if !isSameOrigin baseDomain u then false
  else
    let path := lowerStr (pyUrlparse u).path
    if skipExtensions.any (fun ext => ext.isSuffixOf path) then false
    else if normalizeUrl u ∈ visited then false
    else true

structure CrawlState where
  visited : List Str
  frontier : List (Str × Nat)
deriving DecidableEq

/-- `Crawler._crawl_page` on the success path: mark the page visited and
return the discovered links that pass `_should_visit` (links are only
extracted below the depth budget). `web` gives the links found on each page;
a navigation error returns no links, which `web url = []` covers. -/
def crawlPage (baseDomain : Str) (maxDepth : Nat) (web : Str → List Str)
    (visited : List Str) (url : Str) (depth : Nat) : List Str × List Str :=
  let normalized := normalizeUrl url
  if normalized ∈ visited then (visited, [])
  else
    let visited2 := visited ++ [normalized]
    let links :=
      if depth < maxDepth then (web url).filter (fun l => shouldVisit baseDomain visited2 l)
      else []
    (visited2, links)

/-- The link-enqueue loop at the bottom of `Crawler.crawl`: each link is
appended only while `len(visited) + len(frontier) < max_pages`. -/
def enqueueLinks (maxPages visitedLen depth : Nat) :
    List Str → List (Str × Nat) → List (Str × Nat)
  | [], frontier => frontier
  | l :: ls, frontier =>
      enqueueLinks maxPages visitedLen depth ls
        (if visitedLen + frontier.length < maxPages then frontier ++ [(l, depth + 1)]
         else frontier)

/-- The `while urls_to_visit and len(visited) < max_pages` loop of
`Crawler.crawl`, with explicit fuel. -/
def crawlLoop (baseDomain : Str) (maxPages maxDepth : Nat) (web : Str → List Str) :
    Nat → CrawlState → CrawlState
  | 0, s => s
  | fuel + 1, s =>
      match s.frontier with
      | [] => s
      | (url, depth) :: rest =>
          if s.visited.length < maxPages then
            if shouldVisit baseDomain s.visited url then
              crawlLoop baseDomain maxPages maxDepth web fuel
                ⟨(crawlPage baseDomain maxDepth web s.visited url depth).1,
                 enqueueLinks maxPages
                   (crawlPage baseDomain maxDepth web s.visited url depth).1.length depth
                   (crawlPage baseDomain maxDepth web s.visited url depth).2 rest⟩
            else crawlLoop baseDomain maxPages maxDepth web fuel ⟨s.visited, rest⟩
          else s

structure CrawlResultM where
  pagesVisited : List Str
deriving DecidableEq

/-- `Crawler.crawl`: seed the frontier with `(start_url, 0)`, run the loop;
`result.pages_visited` is the visited set, listed. -/
def crawlRun (cfg : CrawlConfig) (web : Str → List Str) (fuel : Nat) : CrawlResultM :=
  let baseDomain := (pyUrlparse cfg.startUrl).netloc
  let final := crawlLoop baseDomain cfg.maxPages cfg.maxDepth web fuel ⟨[], [(cfg.startUrl, 0)]⟩
  ⟨final.visited⟩

/-! ## interceptor.py -/

structure InterceptConfig where
  /-- the predicates denoted by the compiled `config.exclude_patterns`
  (`pattern.match(url)` truthiness) -/
  excludeMatch : List (Str → Bool)
  /-- likewise for `config.include_patterns` when that list is nonempty -/
  includeMatch : Option (List (Str → Bool))

def docResourceTypes : List Str :=
  ["document", "stylesheet", "image", "font", "media", "manifest"].map String.data

def apiIndicators : List Str :=
  ["/api/", "/v1/", "/v2/", "/v3/", "/graphql",
   "/rest/", "/data/", "/ajax/", "/json/"].map String.data

/-- `APIInterceptor._should_capture`. -/
def shouldCapture (cfg : InterceptConfig) (url : Str) (resourceType : Str) : Bool :=
  if docResourceTypes.contains resourceType then false
  else if cfg.excludeMatch.any (fun m => m url) then false
  else
    match cfg.includeMatch with
    | some pats => pats.any (fun m => m url)
    | none =>
        let path := lowerStr (pyUrlparse url).path
        if apiIndicators.any (fun ind => strContains path ind) then true
        else if resourceType = "xhr".data ∨ resourceType = "fetch".data then true
        else false

/-- One segment under the `re.sub` normalization of `_get_api_signature`:
digits, UUID and 24-hex segments become distinct placeholders, in that order. -/
def sigSeg (s : Str) : Str :=
  if isDigitSeg s then "{id}".data
  else if isUuidSeg s then "{uuid}".data
  else if isHex24Seg s then "{objectid}".data
  else s

/-- The `re.sub` passes of `_get_api_signature`. Each pattern starts with `/`,
so the first segment of a path that does not start with a slash is untouched. -/
def sigNormalizePath (p : Str) : Str :=
  match splitAll '/' p with
  | [] => []
  | s0 :: rest => joinWith '/' (s0 :: rest.map sigSeg)

/-- `APIInterceptor._get_api_signature` (its `body` argument is unused in the
source too). -/
def apiSignature (method url : Str) : Str :=
  let parsed := pyUrlparse url
  let path := sigNormalizePath parsed.path
  method ++ ':' :: (parsed.netloc ++ path) ++
    ':' :: joinWith ',' (insSort lexLe (parseQsKeys parsed.query))

/-- The pending-table key `f"{request.method}:{url}:{id(request)}"`, as the
(method, url, identity) triple that string injectively encodes. -/
structure ReqKey where
  method : Str
  url : Str
  oid : Nat
deriving DecidableEq

structure ReqEvent where
  method : Str
  url : Str
  resourceType : Str
  headers : List (Str × Str)
  /-- `request.post_data`; `none` also covers the exception path -/
  postData : Option Str
  /-- `id(request)` -/
  oid : Nat
  /-- `current_page_url()` at capture time -/
  sourcePage : Str

structure RespEvent where
  req : ReqEvent
  status : Nat
  headers : List (Str × Str)
  /-- `await response.text()` when it succeeds -/
  textResult : Option Str
  /-- fallback decode of `await response.body()` when the bytes are available -/
  bytesResult : Option Str

inductive NetEvent
  | request (e : ReqEvent)
  | response (e : RespEvent)

structure IState where
  captured : List CapturedEndpoint
  pending : List (ReqKey × (CapturedRequest × Str))
  seen : List Str
  dupCount : Nat

def initIState : IState := ⟨[], [], [], 0⟩

def reqKey (e : ReqEvent) : ReqKey := ⟨e.method, e.url, e.oid⟩

/-- Python `dict` assignment `pending[k] = v`. -/
def pendInsert (k : ReqKey) (v : CapturedRequest × Str) :
    List (ReqKey × (CapturedRequest × Str)) → List (ReqKey × (CapturedRequest × Str))
  | [] => [(k, v)]
  | (k2, v2) :: rest => if k2 = k then (k2, v) :: rest else (k2, v2) :: pendInsert k v rest

/-- Python `k in pending` plus `pending.pop(k)`: the entry, and the table
without it. -/
def pendPop (k : ReqKey) :
    List (ReqKey × (CapturedRequest × Str)) →
      Option (CapturedRequest × Str) × List (ReqKey × (CapturedRequest × Str))
  | [] => (none, [])
  | (k2, v2) :: rest =>
      if k2 = k then (some v2, rest)
      else
        let r := pendPop k rest
        (r.1, (k2, v2) :: r.2)

/-- `handle_request`: capture filter, method validation, duplicate-pattern
suppression (`_is_duplicate_api`, which also records the fresh signature),
then the pending-table insert. The pydantic model drops the extracted
path/query/body parameter keyword arguments, so they carry no state. -/
def handleRequest (cfg : InterceptConfig) (e : ReqEvent) (s : IState) : IState :=
  if !shouldCapture cfg e.url e.resourceType then s
  else
    match methodOfStr (upperStr e.method) with
    | none => s
    | some m =>
        if apiSignature m.value e.url ∈ s.seen then { s with dupCount := s.dupCount + 1 }
        else
          { s with
            seen := s.seen ++ [apiSignature m.value e.url],
            pending := pendInsert (reqKey e)
              ((⟨e.url, m, e.headers, e.postData⟩ : CapturedRequest), e.sourcePage) s.pending }

/-- `handle_response`: capture filter, pending lookup by the same key, body
decode with fallback, then emit the finished endpoint. -/
def handleResponse (cfg : InterceptConfig) (e : RespEvent) (s : IState) : IState :=
  if !shouldCapture cfg e.req.url e.req.resourceType then s
  else
    match pendPop (reqKey e.req) s.pending with
    | (none, _) => s
    | (some pv, rest) =>
        { s with
          pending := rest,
          captured := s.captured ++
            [⟨pv.1, ⟨e.status, e.headers, e.textResult.orElse fun _ => e.bytesResult⟩, pv.2⟩] }

def interceptStep (cfg : InterceptConfig) (s : IState) : NetEvent → IState
  | .request e => handleRequest cfg e s
  | .response e => handleResponse cfg e s

def interceptRun (cfg : InterceptConfig) (evs : List NetEvent) (s : IState) : IState :=
  evs.foldl (interceptStep cfg) s

/-- `APIInterceptor.clear`: clears the capture list and the pending table. -/
def interceptClear (s : IState) : IState := { s with captured := [], pending := [] }

/-! ## auth.py `_handle_2fa` -/

/-- What one 2FA attempt observes: the obtained code is empty; filling or
submitting raised; the challenge disappeared (`not still_2fa`); an error
indicator was found (invalid code: input cleared, retry); or neither signal
fired (assumed ok). -/
inductive AttemptOutcome
  | noCode | entryFailed | challengeGone | wrongCode | assumedOk
deriving DecidableEq

/-- The `for attempt in range(max_attempts)` loop of `_handle_2fa`, over the
attempt index, the remaining attempts and the number of codes entered so far;
returns (login success, codes entered). -/
def twoFaLoop (o : Nat → AttemptOutcome) : Nat → Nat → Nat → Bool × Nat
  | _, 0, tries => (false, tries)
  | i, rem + 1, tries =>
      match o i with
      | .noCode => twoFaLoop o (i + 1) rem tries
      | .entryFailed => twoFaLoop o (i + 1) rem (tries + 1)
      | .challengeGone => (true, tries + 1)
      | .wrongCode => twoFaLoop o (i + 1) rem (tries + 1)
      | .assumedOk => (true, tries + 1)

/-- `AuthHandler._handle_2fa` with `max_attempts` attempts: fails immediately
when no 2FA input field is found, else runs the bounded retry loop. -/
def handle2fa (inputFound : Bool) (o : Nat → AttemptOutcome) (maxAttempts : Nat) : Bool × Nat :=
  if inputFound then twoFaLoop o 0 maxAttempts 0 else (false, 0)

/-! ## analyzer.py -/

/-- JSON values as the analyzer walks them (source floats are not needed by
any verified property, numbers are integers). -/
inductive Json
  | null
  | bool (b : Bool)
  | num (n : Int)
  | str (s : Str)
  | arr (items : List Json)
  | obj (entries : List (Str × Json))

def sensitiveFields : List Str :=
  ["password", "passwd", "pwd", "pass",
   "secret", "token", "api_key", "apikey", "api-key",
   "auth", "authorization", "bearer",
   "credential", "private", "key",
   "session", "cookie", "jwt",
   "access_token", "refresh_token",
   "client_secret", "client_id"].map String.data

/-- `EndpointAnalyzer._is_sensitive_field`: case-insensitive substring match
against the sensitive-term list. -/
def isSensitiveField (name : Str) : Bool :=
  sensitiveFields.any (fun t => strContains (lowerStr name) t)

def redactMarker : Str := "***REDACTED***".data

mutual

/-- `EndpointAnalyzer._redact_object`. -/
def redactObject : Json → Json
  | .obj entries => .obj (redactEntries entries)
  | .arr items => .arr (redactItems items)
  | v => v

def redactEntries : List (Str × Json) → List (Str × Json)
  | [] => []
  | (k, v) :: rest =>
      (k, if isSensitiveField k then .str redactMarker else redactObject v) :: redactEntries rest

def redactItems : List Json → List Json
  | [] => []
  | v :: rest => redactObject v :: redactItems rest

end

mutual

/-- No object key anywhere inside the value is a sensitive field name. -/
def cleanJson : Json → Bool
  | .obj entries => cleanEntries entries
  | .arr items => cleanItems items
  | _ => true

def cleanEntries : List (Str × Json) → Bool
  | [] => true
  | (k, v) :: rest => !isSensitiveField k && cleanJson v && cleanEntries rest

def cleanItems : List Json → Bool
  | [] => true
  | v :: rest => cleanJson v && cleanItems rest

end

def nonApiConfigExts : List Str :=
  ["properties", "json", "xml", "yaml", "yml"].map String.data

def nonApiAssetExts : List Str :=
  ["css", "js", "map", "ico", "png", "jpg", "jpeg", "gif",
   "svg", "woff", "woff2", "ttf", "eot"].map String.data

/-- `re.search(pat, path, re.I)` truthiness over the concrete
`NON_API_PATTERNS` list. -/
def matchesNonApi (path : Str) : Bool :=
  let p := lowerStr path
  "/resources/".data.isPrefixOf p ||
    nonApiConfigExts.any (fun e => ('.' :: e).isSuffixOf p) ||
    "/static/".data.isPrefixOf p ||
    "/assets/".data.isPrefixOf p ||
    "/_next/".data.isPrefixOf p ||
    "/__".data.isPrefixOf p ||
    nonApiAssetExts.any (fun e => ('.' :: e).isSuffixOf p || strContains p ('.' :: e ++ ['?']))

/-- `EndpointAnalyzer._is_api_endpoint`. -/
def isApiEndpoint (e : CapturedEndpoint) : Bool :=
  let path := urlPath e.request.url
  if strContains (lowerStr path) "/api/".data then true
  else if matchesNonApi path then false
  else if responseContentType e.response = ContentType.JSON then true
  else if responseContentType e.response = ContentType.HTML then false
  else true

/-- After a digit: consume further digits, allowing single underscores
between digits (the CPython numeric-literal underscore rule). -/
def digitsMore : Str → Str
  | [] => []
  | '_' :: d :: rest => if d.isDigit then digitsMore rest else '_' :: d :: rest
  | c :: rest => if c.isDigit then digitsMore rest else c :: rest

/-- Consume one underscore-grouped digit run; `none` when there is no leading
digit. -/
def digitsUnd : Str → Option Str
  | [] => none
  | c :: rest => if c.isDigit then some (digitsMore rest) else none

def stripPySpaces (s : Str) : Str :=
  let ws := fun (c : Char) =>
    c = ' ' || c = '\t' || c = '\n' || c = '\r' || c = '\x0c' || c = '\x0b'
  ((s.dropWhile ws).reverse.dropWhile ws).reverse

/-- Mantissa of the `float()` grammar: `D [. [D]] | . D`. -/
def mantissaRest (s : Str) : Option Str :=
  match digitsUnd s with
  | some rest =>
      match rest with
      | '.' :: r => some ((digitsUnd r).getD r)
      | _ => some rest
  | none =>
      match s with
      | '.' :: r => digitsUnd r
      | _ => none

def signDropped (s : Str) : Str :=
  match s with
  | '+' :: r => r
  | '-' :: r => r
  | _ => s

/-- Optional exponent `(e|E) [sign] D` of the `float()` grammar. -/
def expRest (s : Str) : Option Str :=
  match s with
  | 'e' :: r => (digitsUnd (signDropped r)).map (fun t => t)
  | 'E' :: r => (digitsUnd (signDropped r)).map (fun t => t)
  | _ => some s

def isInfNanStr (s : Str) : Bool :=
  let l := lowerStr s
  l = "inf".data || l = "infinity".data || l = "nan".data

/-- Python `float(value)` acceptance, over the ASCII grammar with numeric
underscores. -/
def pyFloatValid (s : Str) : Bool :=
  let t := stripPySpaces s
  let u := signDropped t
  if isInfNanStr u then true
  else
    match mantissaRest u with
    | some rest =>
        match expRest rest with
        | some [] => true
        | _ => false
    | none => false

inductive SchemaType
  | STRING | INTEGER | NUMBER | BOOLEAN | ARRAY | OBJECT | NULL
deriving DecidableEq

/-- `EndpointAnalyzer._infer_type`. The UUID branch of the source returns
STRING, identical to the default, so it needs no separate case. -/
def inferType : Json → SchemaType
  | .null => .NULL
  | .bool _ => .BOOLEAN
  | .num _ => .INTEGER
  | .str v =>
      if isDigitSeg v then .INTEGER
      else if pyFloatValid v then .NUMBER
      else if lowerStr v = "true".data ∨ lowerStr v = "false".data then .BOOLEAN
      else .STRING
  | .arr _ => .ARRAY
  | .obj _ => .OBJECT

inductive ParamLocation
  | path | query | header | cookie | body
deriving DecidableEq

structure Parameter where
  name : Str
  location : ParamLocation
  required : Bool
  schemaType : SchemaType
  /-- the source's `example` field (`example` is reserved in Lean) -/
  exampleVal : Option Json
  examples : List Json

/-- `EndpointGroup` restricted to the fields the verified properties mention;
the request/response body schema-inference fields of `_analyze_group` are out
of scope for this development. -/
structure EndpointGroup where
  method : HttpMethod
  pathPattern : Str
  baseUrl : Str
  captured : List CapturedEndpoint
  tags : List Str
  summary : Str
  parameters : List Parameter

def pyTitleGo (prevAlpha : Bool) : Str → Str
  | [] => []
  | c :: rest => (if prevAlpha then lowerCh c else upperCh c) :: pyTitleGo c.isAlpha rest

/-- Python `str.title()` over ASCII letters. -/
def pyTitle (s : Str) : Str := pyTitleGo false s

def replaceCh (a b : Char) (s : Str) : Str := s.map (fun c => if c = a then b else c)

/-- The `re.sub` of `_infer_tags` removing a leading `/?(api|v\d+)/`. -/
def stripApiLead (p : Str) : Str :=
  let core : Str → Option Str := fun q =>
    if "api/".data.isPrefixOf q then some (q.drop 4)
    else
      match q with
      | 'v' :: rest =>
          let ds := rest.takeWhile Char.isDigit
          if !ds.isEmpty && (rest.drop ds.length).headD ' ' = '/' then
            some (rest.drop (ds.length + 1))
          else none
      | _ => none
  match p with
  | '/' :: rest => (core rest).getD p
  | _ => (core p).getD p

/-- `EndpointAnalyzer._infer_tags`. -/
def inferTags (path : Str) : List Str :=
  let p := stripApiLead path
  let parts := (splitAll '/' p).filter (fun s => !s.isEmpty && !("\x7b".data.isPrefixOf s))
  match parts with
  | [] => ["General".data]
  | t :: _ => [pyTitle (replaceCh '_' ' ' (replaceCh '-' ' ' t))]

def methodAction (single : Bool) : HttpMethod → Str
  | .GET => if single then "Get".data else "List".data
  | .POST => "Create".data
  | .PUT => "Update".data
  | .PATCH => "Partially update".data
  | .DELETE => "Delete".data
  | .HEAD => "Check".data
  | .OPTIONS => "Get options for".data

/-- `EndpointAnalyzer._generate_summary`. -/
def generateSummary (m : HttpMethod) (path : Str) : Str :=
  let parts := (splitAll '/' path).filter (fun s => !s.isEmpty && !("\x7b".data.isPrefixOf s))
  let resource :=
    match parts.getLast? with
    | none => "resource".data
    | some t => replaceCh '_' ' ' (replaceCh '-' ' ' t)
  methodAction (strContains path idToken) m ++ ' ' :: resource

/-- First zip position whose normalized segment is the id placeholder while
the original segment is not, with that original segment. -/
def firstIdIdxGo (i : Nat) : List Str → List Str → Option (Nat × Str)
  | [], _ => none
  | _, [] => none
  | o :: os, n :: ns =>
      if n = idToken ∧ o ≠ idToken then some (i, o)
      else firstIdIdxGo (i + 1) os ns

/-- The `examples=list(set(...))[:5]` sampling of path-parameter literals;
CPython set iteration order is modeled as first-occurrence order. -/
def idExamples (endpoints : List CapturedEndpoint) (i : Nat) : List Str :=
  (dedupFirst (endpoints.filterMap (fun ep =>
      let parts := splitAll '/' (urlPath ep.request.url)
      if i < parts.length then some (parts.getD i []) else none))).take 5

/-- `EndpointAnalyzer._analyze_parameters`. The `if not any(...)` duplicate
check admits only the first qualifying placeholder position as the `id` path
parameter. -/
def analyzeParameters (endpoints : List CapturedEndpoint) : List Parameter :=
  match endpoints with
  | [] => []
  | first :: _ =>
      let path := urlPath first.request.url
      let origParts := splitAll '/' path
      let normParts := splitAll '/' (normalizePath path)
      let pathParams : List Parameter :=
        match firstIdIdxGo 0 origParts normParts with
        | none => []
        | some (i, orig) =>
            [⟨"id".data, .path, true, inferType (.str orig), some (.str orig),
              (idExamples endpoints i).map Json.str⟩]
      let queryMerged := endpoints.foldl (fun acc ep =>
          (parseQs (pyUrlparse ep.request.url).query).foldl
            (fun acc2 kv => kv.2.foldl (fun a v => qsInsert kv.1 v a) acc2) acc) []
      let queryParams := queryMerged.map (fun kv =>
          let uniq := (dedupFirst kv.2).take 5
          (⟨kv.1, .query, false, inferType (.str (uniq.headD [])),
            uniq.head?.map Json.str, uniq.map Json.str⟩ : Parameter))
      pathParams ++ queryParams

/-- `_redact_sensitive_data` over the modeled fields: a parameter with a
sensitive name has its example values replaced by the marker. The source
works on a deep copy; values here are pure. -/
def redactGroup (g : EndpointGroup) : EndpointGroup :=
  { g with parameters := g.parameters.map (fun p =>
      if isSensitiveField p.name then
        { p with exampleVal := some (.str redactMarker), examples := [.str redactMarker] }
      else p) }

/-- `EndpointAnalyzer._analyze_group` over the modeled fields. -/
def analyzeGroup (endpoints : List CapturedEndpoint) : Option EndpointGroup :=
  match endpoints with
  | [] => none
  | first :: _ =>
      let parsed := pyUrlparse first.request.url
      let pathPattern := normalizePath parsed.path
      some
        { method := first.request.method
          pathPattern := pathPattern
          baseUrl := parsed.scheme ++ ':' :: '/' :: '/' :: parsed.netloc
          captured := endpoints
          tags := inferTags pathPattern
          summary := generateSummary first.request.method pathPattern
          parameters := analyzeParameters endpoints }

/-- `defaultdict(list)` grouping by `endpoint_id`, keys in insertion order. -/
def groupInsert (k : Str) (e : CapturedEndpoint) :
    List (Str × List CapturedEndpoint) → List (Str × List CapturedEndpoint)
  | [] => [(k, [e])]
  | (k2, l) :: rest => if k2 = k then (k2, l ++ [e]) :: rest else (k2, l) :: groupInsert k e rest

def groupById (eps : List CapturedEndpoint) : List (Str × List CapturedEndpoint) :=
  eps.foldl (fun acc e => groupInsert (endpointId e) e acc) []

/-- Python tuple comparison on the `(path_pattern, method.value)` sort key. -/
def pairLe (a b : Str × Str) : Bool :=
  if a.1 = b.1 then lexLe a.2 b.2 else lexLe a.1 b.1

def groupKey (g : EndpointGroup) : Str × Str := (g.pathPattern, g.method.value)

def groupLe (g h : EndpointGroup) : Bool := pairLe (groupKey g) (groupKey h)

structure AnalyzerConfig where
  filterNonApi : Bool
  redactSensitive : Bool

/-- `EndpointAnalyzer.analyze` over the modeled group fields: filter, group by
`endpoint_id`, analyze each group, optional redaction, sort by
`(path_pattern, method.value)`. -/
def analyze (cfg : AnalyzerConfig) (eps : List CapturedEndpoint) : List EndpointGroup :=
  let eps2 := if cfg.filterNonApi then eps.filter isApiEndpoint else eps
  let analyzed := (groupById eps2).filterMap (fun kv =>
      (analyzeGroup kv.2).map (fun g => if cfg.redactSensitive then redactGroup g else g))
  insSort groupLe analyzed

/-! ## Spec-side relations and concrete fixtures used by the statements -/

/-- Segment lists of equal length that agree except at positions where both
sides hold an id-like segment (numeric, UUID, or 24-hex). -/
def segsMatch : List Str → List Str → Bool
  | [], [] => true
  | a :: xs, b :: ys => (decide (a = b) || (isIdSeg a && isIdSeg b)) && segsMatch xs ys
  | _, _ => false

/-- The pattern signature of a pending-table entry (of its stored request). -/
def pendSigP (sig : Str) (kv : ReqKey × (CapturedRequest × Str)) : Bool :=
  decide (apiSignature kv.2.1.method.value kv.2.1.url = sig)

/-- The pattern signature of a captured endpoint (of its request). -/
def capSigP (sig : Str) (e : CapturedEndpoint) : Bool :=
  decide (apiSignature e.request.method.value e.request.url = sig)

/-- Run invariant behind duplicate-pattern suppression: per signature, the
captured endpoints and pending entries together never exceed one, and only
once the signature is in the seen set. -/
def sigBound (sig : Str) (s : IState) : Prop :=
  s.captured.countP (capSigP sig) + s.pending.countP (pendSigP sig) ≤
    if sig ∈ s.seen then 1 else 0

/-- The example value of a parameter as a plain string (projection used to
compare analyzer outputs without equality on `Json`). -/
def paramExampleStr (p : Parameter) : Str :=
  match p.exampleVal with
  | some (.str s) => s
  | _ => []

def analyzeExamples (cfg : AnalyzerConfig) (eps : List CapturedEndpoint) : List (List Str) :=
  (analyze cfg eps).map (fun g => g.parameters.map paramExampleStr)

def c1epA : CapturedEndpoint :=
  ⟨⟨"https://h/users/42/orders/7".data, .GET, [], none⟩, ⟨200, [], none⟩, []⟩

def c1epB : CapturedEndpoint :=
  ⟨⟨"https://h/users/99/orders/3".data, .GET, [], none⟩, ⟨200, [], none⟩, []⟩

def c7cfg : InterceptConfig := ⟨[], none⟩

def c7req : ReqEvent :=
  ⟨"GET".data, "https://h/api/a".data, "xhr".data, [], none, 0, "https://h/p".data⟩

def c7state : IState := handleRequest c7cfg c7req initIState

def c7resp : RespEvent := ⟨c7req, 500, [], none, none⟩

def c9cfg : InterceptConfig := ⟨[], none⟩

def c9sigma : Str := "GET:h/a:".data

def c9state : IState := ⟨[], [], [c9sigma], 0⟩

def c9evs : List NetEvent :=
  [.request ⟨"GET".data, "https://h/a".data, "xhr".data, [], none, 5, []⟩]

def c2cfg : CrawlConfig := ⟨"https://x/a".data, 2, 3⟩

def c2web : Str → List Str :=
  fun _ => ["https://x/b".data, "https://x/c".data, "https://x/d".data]

def c6cfg : AnalyzerConfig := ⟨true, true⟩

def c6e1 : CapturedEndpoint :=
  ⟨⟨"https://x/api/users/42".data, .GET, [], none⟩,
   ⟨200, [("content-type".data, "application/json".data)], none⟩, []⟩

def c6e2 : CapturedEndpoint :=
  ⟨⟨"https://x/api/users/99".data, .GET, [], none⟩,
   ⟨200, [("content-type".data, "application/json".data)], none⟩, []⟩

/-! # Theorems -/

theorem splitAll_ne_nil (sep : Char) (l : Str) : splitAll sep l ≠ [] := by
  induction l with
  | nil => simp [splitAll]
  | cons c cs ih =>
      by_cases h : c = sep
      · simp [splitAll, h]
      · cases hcs : splitAll sep cs with
        | nil => exact absurd hcs ih
        | cons s rest => simp [splitAll, h, hcs]

theorem splitAll_no_sep_mem (sep : Char) (l : Str) :
    ∀ s ∈ splitAll sep l, sep ∉ s := by
  induction l with
  | nil =>
      intro s hs
      simp [splitAll] at hs
      simp [hs]
  | cons c cs ih =>
      intro s hs
      by_cases h : c = sep
      · simp only [splitAll, if_pos h] at hs
        rcases List.mem_cons.mp hs with rfl | hs2
        · simp
        · exact ih s hs2
      · cases hcs : splitAll sep cs with
        | nil => exact absurd hcs (splitAll_ne_nil sep cs)
        | cons t rest =>
            simp only [splitAll, if_neg h, hcs] at hs
            rcases List.mem_cons.mp hs with rfl | hs2
            · intro hmem
              rcases List.mem_cons.mp hmem with he | hmem2
              · exact h he.symm
              · exact ih t (by simp [hcs]) hmem2
            · exact ih s (by simp [hcs, hs2])

theorem splitAll_of_not_mem (sep : Char) (l : Str) (h : sep ∉ l) :
    splitAll sep l = [l] := by
  induction l with
  | nil => simp [splitAll]
  | cons c cs ih =>
      have hc : ¬ c = sep := by
        intro e
        exact h (by simp [e])
      have hcs : sep ∉ cs := fun m => h (List.mem_cons_of_mem _ m)
      simp [splitAll, hc, ih hcs]

theorem splitAll_append_sep (sep : Char) (s m : Str) (hs : sep ∉ s) :
    splitAll sep (s ++ sep :: m) = s :: splitAll sep m := by
  induction s with
  | nil => simp [splitAll]
  | cons c cs ih =>
      have hc : ¬ c = sep := by
        intro e
        exact hs (by simp [e])
      have hcs : sep ∉ cs := fun hm => hs (List.mem_cons_of_mem _ hm)
      simp [splitAll, hc, ih hcs]

theorem splitAll_joinWith (sep : Char) (segs : List Str) (hne : segs ≠ [])
    (hs : ∀ s ∈ segs, sep ∉ s) : splitAll sep (joinWith sep segs) = segs := by
  induction segs with
  | nil => exact absurd rfl hne
  | cons s rest ih =>
      cases rest with
      | nil => simpa [joinWith] using splitAll_of_not_mem sep s (hs s (by simp))
      | cons t ts =>
          have h1 : sep ∉ s := hs s (by simp)
          have h2 := ih (by simp) (fun x hx => hs x (List.mem_cons_of_mem _ hx))
          show splitAll sep (s ++ sep :: joinWith sep (t :: ts)) = _
          rw [splitAll_append_sep sep s _ h1, h2]

theorem isIdSeg_idToken : isIdSeg idToken = false := by decide

theorem normSeg_no_slash (s : Str) (h : '/' ∉ s) : '/' ∉ normSeg s := by
  unfold normSeg
  split
  · decide
  · exact h

theorem normSeg_idem (s : Str) : normSeg (normSeg s) = normSeg s := by
  by_cases h : isIdSeg s = true
  · simp [normSeg, h, isIdSeg_idToken]
  · simp [normSeg, h]

/-- C8: path normalization is idempotent — normalizing an already-normalized
path yields the same path unchanged: for every path string `p`,
`_normalize_path(_normalize_path(p)) = _normalize_path(p)`. -/
theorem c8_normalize_idempotent (p : Str) :
    normalizePath (normalizePath p) = normalizePath p := by
  unfold normalizePath
  have hne : (splitAll '/' p).map normSeg ≠ [] := by
    intro h
    exact splitAll_ne_nil '/' p (List.map_eq_nil_iff.mp h)
  have hmem : ∀ s ∈ (splitAll '/' p).map normSeg, '/' ∉ s := by
    intro s hsm
    obtain ⟨t, ht, rfl⟩ := List.mem_map.mp hsm
    exact normSeg_no_slash t (splitAll_no_sep_mem '/' p t ht)
  rw [splitAll_joinWith '/' _ hne hmem]
  congr 1
  rw [List.map_map]
  exact List.map_congr_left (fun x _ => normSeg_idem x)

theorem segsMatch_map_normSeg : ∀ xs ys : List Str, segsMatch xs ys = true →
    xs.map normSeg = ys.map normSeg := by
  intro xs
  induction xs with
  | nil =>
      intro ys h
      cases ys with
      | nil => rfl
      | cons b bs => simp [segsMatch] at h
  | cons a xs2 ih =>
      intro ys h
      cases ys with
      | nil => simp [segsMatch] at h
      | cons b ys2 =>
          simp only [segsMatch, Bool.and_eq_true, Bool.or_eq_true, decide_eq_true_eq] at h
          obtain ⟨h1, h2⟩ := h
          simp only [List.map]
          rw [ih ys2 h2]
          congr 1
          rcases h1 with rfl | ⟨ha, hb⟩
          · rfl
          · simp [normSeg, ha, hb]

/-- C1: two captured endpoints whose requests share a method and whose URL
paths differ only in id-like (numeric / UUID / 24-hex) segments have the same
endpoint fingerprint `endpoint_id`. -/
theorem c1_fingerprint_stable (e1 e2 : CapturedEndpoint)
    (hm : e1.request.method = e2.request.method)
    (hp : segsMatch (splitAll '/' (urlPath e1.request.url))
        (splitAll '/' (urlPath e2.request.url)) = true) :
    endpointId e1 = endpointId e2 := by
  unfold endpointId
  have hn : normalizePath (urlPath e1.request.url) = normalizePath (urlPath e2.request.url) := by
    unfold normalizePath
    rw [segsMatch_map_normSeg _ _ hp]
  rw [hm, hn]

/-- C1 witness: `GET /users/42/orders/7` and `GET /users/99/orders/3` both
normalize to `/users/\x7bid\x7d/orders/\x7bid\x7d` and share one fingerprint. -/
theorem c1_fingerprint_stable_witness :
    segsMatch (splitAll '/' (urlPath c1epA.request.url))
        (splitAll '/' (urlPath c1epB.request.url)) = true ∧
    normalizePath (urlPath c1epA.request.url) = "/users/{id}/orders/{id}".data ∧
    endpointId c1epA = endpointId c1epB :=
  ⟨by decide, by decide, c1_fingerprint_stable c1epA c1epB rfl (by decide)⟩

/-- C4: the 2FA resolution loop with `max_attempts = 3` (the value
`_handle_2fa` is called with) reports failure after exactly 3 code entries
when every attempt observes a wrong code — never more. -/
theorem c4_twofa_bound (o : Nat → AttemptOutcome)
    (h : ∀ i, i < 3 → o i = .wrongCode) :
    handle2fa true o 3 = (false, 3) := by
  have h0 := h 0 (by omega)
  have h1 := h 1 (by omega)
  have h2 := h 2 (by omega)
  simp [handle2fa, twoFaLoop, h0, h1, h2]

/-- C4 witness: three consecutive wrong codes fail after exactly 3 tries. -/
theorem c4_twofa_bound_witness :
    handle2fa true (fun _ => AttemptOutcome.wrongCode) 3 = (false, 3) :=
  c4_twofa_bound (fun _ => AttemptOutcome.wrongCode) (fun _ _ => rfl)

mutual

theorem redactObject_clean : ∀ v : Json, cleanJson v = true → redactObject v = v
  | .null, _ => rfl
  | .bool _, _ => rfl
  | .num _, _ => rfl
  | .str _, _ => rfl
  | .arr items, h => by
      rw [redactObject, redactItems_clean items (by simpa [cleanJson] using h)]
  | .obj entries, h => by
      rw [redactObject, redactEntries_clean entries (by simpa [cleanJson] using h)]

theorem redactEntries_clean :
    ∀ es : List (Str × Json), cleanEntries es = true → redactEntries es = es
  | [], _ => rfl
  | (k, v) :: rest, h => by
      rw [cleanEntries] at h
      simp only [Bool.and_eq_true, Bool.not_eq_true'] at h
      obtain ⟨⟨hk, hv⟩, hrest⟩ := h
      simp [redactEntries, hk, redactObject_clean v hv, redactEntries_clean rest hrest]

theorem redactItems_clean : ∀ l : List Json, cleanItems l = true → redactItems l = l
  | [], _ => rfl
  | v :: rest, h => by
      rw [cleanItems] at h
      simp only [Bool.and_eq_true] at h
      obtain ⟨hv, hrest⟩ := h
      simp [redactItems, redactObject_clean v hv, redactItems_clean rest hrest]

end

/-- C5: redaction replaces the value of every dictionary key whose name
contains a sensitive term with the marker, recurses into every other value
(leaving values with no sensitive key anywhere unchanged), and on the nested
example `\x7b"user": \x7b"password": "x", "name": "bob"\x7d\x7d` replaces
exactly the password value. -/
theorem c5_redaction :
    (∀ v : Json, cleanJson v = true → redactObject v = v) ∧
    (∀ (entries : List (Str × Json)) (k : Str) (v : Json), (k, v) ∈ entries →
        isSensitiveField k = true → (k, Json.str redactMarker) ∈ redactEntries entries) ∧
    (∀ (entries : List (Str × Json)) (k : Str) (v : Json), (k, v) ∈ entries →
        isSensitiveField k = false → (k, redactObject v) ∈ redactEntries entries) ∧
    redactObject (.obj [("user".data,
        .obj [("password".data, .str "x".data), ("name".data, .str "bob".data)])]) =
      .obj [("user".data,
        .obj [("password".data, .str redactMarker), ("name".data, .str "bob".data)])] := by
  refine ⟨redactObject_clean, ?_, ?_, ?_⟩
  · intro entries k v hmem hk
    induction entries with
    | nil => cases hmem
    | cons e rest ih =>
        obtain ⟨k2, v2⟩ := e
        rcases List.mem_cons.mp hmem with he | h2
        · obtain ⟨rfl, rfl⟩ := Prod.mk.injEq .. ▸ And.intro (congrArg Prod.fst he) (congrArg Prod.snd he)
          simp [redactEntries, hk]
        · exact List.mem_cons_of_mem _ (ih h2)
  · intro entries k v hmem hk
    induction entries with
    | nil => cases hmem
    | cons e rest ih =>
        obtain ⟨k2, v2⟩ := e
        rcases List.mem_cons.mp hmem with he | h2
        · obtain ⟨rfl, rfl⟩ := Prod.mk.injEq .. ▸ And.intro (congrArg Prod.fst he) (congrArg Prod.snd he)
          simp [redactEntries, hk]
        · exact List.mem_cons_of_mem _ (ih h2)
  · rfl

/-- C5 witness: concrete instances of the three quantified parts. -/
theorem c5_redaction_witness :
    redactObject (Json.str "ok".data) = Json.str "ok".data ∧
    ("password".data, Json.str redactMarker) ∈
      redactEntries [("password".data, Json.str "x".data)] ∧
    ("name".data, redactObject (Json.str "bob".data)) ∈
      redactEntries [("name".data, Json.str "bob".data)] :=
  ⟨c5_redaction.1 (Json.str "ok".data) rfl,
   c5_redaction.2.1 [("password".data, Json.str "x".data)] "password".data
     (Json.str "x".data) (List.Mem.head _) (by decide),
   c5_redaction.2.2.1 [("name".data, Json.str "bob".data)] "name".data
     (Json.str "bob".data) (List.Mem.head _) (by decide)⟩

/-- C7: an observed response matching a pending request whose body cannot be
decoded at all is still recorded — the `CapturedEndpoint` is appended with an
absent (`none`) response body and the pending entry is removed. -/
theorem c7_undecodable_recorded (cfg : InterceptConfig) (s : IState) (e : RespEvent)
    (pv : CapturedRequest × Str) (rest : List (ReqKey × (CapturedRequest × Str)))
    (hcap : shouldCapture cfg e.req.url e.req.resourceType = true)
    (hpend : pendPop (reqKey e.req) s.pending = (some pv, rest))
    (htext : e.textResult = none) (hbytes : e.bytesResult = none) :
    handleResponse cfg e s =
      { s with pending := rest,
               captured := s.captured ++ [⟨pv.1, ⟨e.status, e.headers, none⟩, pv.2⟩] } := by
  simp [handleResponse, hcap, hpend, htext, hbytes, Option.orElse]

/-- C7 witness: a pending `GET https://h/api/a` whose response body decodes
neither via `text()` nor via `body()` is recorded with an absent body. -/
theorem c7_undecodable_recorded_witness :
    handleResponse c7cfg c7resp c7state =
      { c7state with
        pending := [],
        captured := c7state.captured ++
          [⟨⟨"https://h/api/a".data, .GET, [], none⟩, ⟨500, [], none⟩, "https://h/p".data⟩] } :=
  c7_undecodable_recorded c7cfg c7state c7resp
    (⟨"https://h/api/a".data, .GET, [], none⟩, "https://h/p".data) []
    (by decide) rfl rfl rfl


theorem pendInsert_countP_le (p : ReqKey × (CapturedRequest × Str) → Bool)
    (k : ReqKey) (v : CapturedRequest × Str) (l : List (ReqKey × (CapturedRequest × Str))) :
    (pendInsert k v l).countP p ≤ l.countP p + (if p (k, v) then 1 else 0) := by
  induction l with
  | nil =>
      simp only [pendInsert, List.countP_cons, List.countP_nil]
      split <;> simp
  | cons kv rest ih =>
      obtain ⟨k2, v2⟩ := kv
      by_cases hk : k2 = k
      · subst hk
        rw [pendInsert, if_pos rfl]
        simp only [List.countP_cons]
        split_ifs <;> omega
      · rw [pendInsert, if_neg hk]
        simp only [List.countP_cons]
        split_ifs at ih ⊢ <;> omega

theorem pendInsert_countP_of_neg (p : ReqKey × (CapturedRequest × Str) → Bool)
    (k : ReqKey) (v : CapturedRequest × Str) (l : List (ReqKey × (CapturedRequest × Str)))
    (hv : p (k, v) = false) : (pendInsert k v l).countP p ≤ l.countP p := by
  have h := pendInsert_countP_le p k v l
  simpa [hv] using h

theorem pendInsert_countP_le_one (p : ReqKey × (CapturedRequest × Str) → Bool)
    (k : ReqKey) (v : CapturedRequest × Str) (l : List (ReqKey × (CapturedRequest × Str)))
    (hl : l.countP p = 0) : (pendInsert k v l).countP p ≤ 1 := by
  have h := pendInsert_countP_le p k v l
  rw [hl] at h
  exact h.trans (by split <;> omega)

theorem pendPop_countP (p : ReqKey × (CapturedRequest × Str) → Bool) (k : ReqKey)
    (l : List (ReqKey × (CapturedRequest × Str))) (pv : CapturedRequest × Str)
    (rest : List (ReqKey × (CapturedRequest × Str)))
    (h : pendPop k l = (some pv, rest)) :
    l.countP p = rest.countP p + (if p (k, pv) then 1 else 0) := by
  induction l generalizing rest with
  | nil => simp [pendPop] at h
  | cons kv tail ih =>
      obtain ⟨k2, v2⟩ := kv
      by_cases hk : k2 = k
      · subst hk
        rw [pendPop, if_pos rfl] at h
        have hpv : v2 = pv := by
          have := congrArg Prod.fst h
          simpa using this
        have hrest : tail = rest := by
          have := congrArg Prod.snd h
          simpa using this
        subst hpv
        subst hrest
        simp [List.countP_cons]
      · have hstep : pendPop k ((k2, v2) :: tail) =
            ((pendPop k tail).1, (k2, v2) :: (pendPop k tail).2) := by
          simp [pendPop, hk]
        rw [hstep] at h
        have h1 : (pendPop k tail).1 = some pv := congrArg Prod.fst h
        have h3 : (k2, v2) :: (pendPop k tail).2 = rest := congrArg Prod.snd h
        have heq : pendPop k tail = (some pv, (pendPop k tail).2) := by
          rw [← h1]
        have ihh := ih (pendPop k tail).2 heq
        rw [← h3]
        simp only [List.countP_cons]
        omega

theorem handleRequest_sigBound (cfg : InterceptConfig) (e : ReqEvent) (sig : Str)
    (s : IState) (h : sigBound sig s) : sigBound sig (handleRequest cfg e s) := by
  unfold handleRequest
  split
  · exact h
  · split
    · exact h
    · rename_i m hm
      by_cases hdup : apiSignature m.value e.url ∈ s.seen
      · rw [if_pos hdup]
        exact h
      · rw [if_neg hdup]
        unfold sigBound at h
        show s.captured.countP (capSigP sig) +
            (pendInsert (reqKey e)
              ((⟨e.url, m, e.headers, e.postData⟩ : CapturedRequest), e.sourcePage)
              s.pending).countP (pendSigP sig) ≤
          if sig ∈ s.seen ++ [apiSignature m.value e.url] then 1 else 0
        by_cases hsig : apiSignature m.value e.url = sig
        · rw [if_neg (fun hc => hdup (by rw [hsig]; exact hc))] at h
          have hcap : s.captured.countP (capSigP sig) = 0 := by omega
          have hpend : s.pending.countP (pendSigP sig) = 0 := by omega
          have hmem : sig ∈ s.seen ++ [apiSignature m.value e.url] := by simp [hsig]
          rw [if_pos hmem, hcap]
          have hle := pendInsert_countP_le_one (pendSigP sig) (reqKey e)
            (⟨e.url, m, e.headers, e.postData⟩, e.sourcePage) s.pending hpend
          omega
        · have hnew : pendSigP sig
              (reqKey e, (⟨e.url, m, e.headers, e.postData⟩, e.sourcePage)) = false := by
            simp only [pendSigP, decide_eq_false_iff_not]
            exact hsig
          have hle := pendInsert_countP_of_neg (pendSigP sig) (reqKey e)
            (⟨e.url, m, e.headers, e.postData⟩, e.sourcePage) s.pending hnew
          have hmem : (sig ∈ s.seen ++ [apiSignature m.value e.url]) ↔ sig ∈ s.seen := by
            constructor
            · intro hc
              rcases List.mem_append.mp hc with hc2 | hc2
              · exact hc2
              · exact absurd (List.mem_singleton.mp hc2).symm hsig
            · intro hc
              exact List.mem_append.mpr (Or.inl hc)
          by_cases hseen : sig ∈ s.seen
          · rw [if_pos (hmem.mpr hseen)]
            rw [if_pos hseen] at h
            omega
          · rw [if_neg (fun hc => hseen (hmem.mp hc))]
            rw [if_neg hseen] at h
            omega

theorem handleResponse_sigBound (cfg : InterceptConfig) (e : RespEvent) (sig : Str)
    (s : IState) (h : sigBound sig s) : sigBound sig (handleResponse cfg e s) := by
  unfold handleResponse
  split
  · exact h
  · cases hp : pendPop (reqKey e.req) s.pending with
    | mk o rest =>
        cases o with
        | none => exact h
        | some pv =>
            unfold sigBound at h
            have hpop := pendPop_countP (pendSigP sig) (reqKey e.req) s.pending pv rest hp
            show (s.captured ++
                [(⟨pv.1, (⟨e.status, e.headers,
                  e.textResult.orElse fun _ => e.bytesResult⟩ : CapturedResponse),
                  pv.2⟩ : CapturedEndpoint)]).countP (capSigP sig) +
              rest.countP (pendSigP sig) ≤ if sig ∈ s.seen then 1 else 0
            have hsame : capSigP sig (⟨pv.1, ⟨e.status, e.headers,
                e.textResult.orElse fun _ => e.bytesResult⟩, pv.2⟩ : CapturedEndpoint) =
                pendSigP sig (reqKey e.req, pv) := rfl
            rw [List.countP_append]
            simp only [List.countP_cons, List.countP_nil, hsame]
            split_ifs at hpop h ⊢ <;> omega

theorem interceptRun_sigBound (cfg : InterceptConfig) (evs : List NetEvent) (sig : Str)
    (s : IState) (h : sigBound sig s) : sigBound sig (interceptRun cfg evs s) := by
  induction evs generalizing s with
  | nil => exact h
  | cons ev rest ih =>
      cases ev with
      | request e => exact ih _ (handleRequest_sigBound cfg e sig s h)
      | response e => exact ih _ (handleResponse_sigBound cfg e sig s h)

/-- C3: in any run of one interceptor instance, at most one request per
distinct pattern signature is admitted to the pending table, so at most one
`CapturedEndpoint` per distinct signature is captured: for every event
sequence and every signature, the captured endpoints and pending entries with
that signature together number at most one. -/
theorem c3_one_capture_per_signature (cfg : InterceptConfig) (evs : List NetEvent) (sig : Str) :
    (interceptRun cfg evs initIState).captured.countP (capSigP sig) +
      (interceptRun cfg evs initIState).pending.countP (pendSigP sig) ≤ 1 := by
  have h0 : sigBound sig initIState := by simp [sigBound, initIState]
  have h := interceptRun_sigBound cfg evs sig initIState h0
  unfold sigBound at h
  exact h.trans (by split <;> omega)

theorem handleRequest_blocked (cfg : InterceptConfig) (e : ReqEvent) (sig : Str) (s : IState)
    (h1 : sig ∈ s.seen) (h2 : s.pending.countP (pendSigP sig) = 0)
    (h3 : s.captured.countP (capSigP sig) = 0) :
    sig ∈ (handleRequest cfg e s).seen ∧
      (handleRequest cfg e s).pending.countP (pendSigP sig) = 0 ∧
      (handleRequest cfg e s).captured.countP (capSigP sig) = 0 := by
  unfold handleRequest
  split
  · exact ⟨h1, h2, h3⟩
  · split
    · exact ⟨h1, h2, h3⟩
    · rename_i m hm
      by_cases hdup : apiSignature m.value e.url ∈ s.seen
      · rw [if_pos hdup]
        exact ⟨h1, h2, h3⟩
      · rw [if_neg hdup]
        refine ⟨List.mem_append.mpr (Or.inl h1), ?_, h3⟩
        have hsig : apiSignature m.value e.url ≠ sig := fun hc => hdup (hc ▸ h1)
        have hnew : pendSigP sig
            (reqKey e, (⟨e.url, m, e.headers, e.postData⟩, e.sourcePage)) = false := by
          simp only [pendSigP, decide_eq_false_iff_not]
          exact hsig
        have hle := pendInsert_countP_of_neg (pendSigP sig) (reqKey e)
          (⟨e.url, m, e.headers, e.postData⟩, e.sourcePage) s.pending hnew
        show (pendInsert (reqKey e)
            ((⟨e.url, m, e.headers, e.postData⟩ : CapturedRequest), e.sourcePage)
            s.pending).countP (pendSigP sig) = 0
        omega

theorem handleResponse_blocked (cfg : InterceptConfig) (e : RespEvent) (sig : Str) (s : IState)
    (h1 : sig ∈ s.seen) (h2 : s.pending.countP (pendSigP sig) = 0)
    (h3 : s.captured.countP (capSigP sig) = 0) :
    sig ∈ (handleResponse cfg e s).seen ∧
      (handleResponse cfg e s).pending.countP (pendSigP sig) = 0 ∧
      (handleResponse cfg e s).captured.countP (capSigP sig) = 0 := by
  unfold handleResponse
  split
  · exact ⟨h1, h2, h3⟩
  · cases hp : pendPop (reqKey e.req) s.pending with
    | mk o rest =>
        cases o with
        | none => exact ⟨h1, h2, h3⟩
        | some pv =>
            have hpop := pendPop_countP (pendSigP sig) (reqKey e.req) s.pending pv rest hp
            rw [h2] at hpop
            have hrest : rest.countP (pendSigP sig) = 0 := by
              split_ifs at hpop
              all_goals omega
            have hflat : pendSigP sig (reqKey e.req, pv) = false := by
              by_contra hc
              rw [Bool.not_eq_false] at hc
              rw [if_pos hc] at hpop
              omega
            refine ⟨h1, hrest, ?_⟩
            show (s.captured ++
                [(⟨pv.1, (⟨e.status, e.headers,
                  e.textResult.orElse fun _ => e.bytesResult⟩ : CapturedResponse),
                  pv.2⟩ : CapturedEndpoint)]).countP (capSigP sig) = 0
            have hsame : capSigP sig (⟨pv.1, ⟨e.status, e.headers,
                e.textResult.orElse fun _ => e.bytesResult⟩, pv.2⟩ : CapturedEndpoint) =
                pendSigP sig (reqKey e.req, pv) := rfl
            rw [List.countP_append]
            simp only [List.countP_cons, List.countP_nil, hsame, hflat]
            simpa using h3

theorem interceptRun_blocked (cfg : InterceptConfig) (evs : List NetEvent) (sig : Str)
    (s : IState) (h1 : sig ∈ s.seen) (h2 : s.pending.countP (pendSigP sig) = 0)
    (h3 : s.captured.countP (capSigP sig) = 0) :
    (interceptRun cfg evs s).captured.countP (capSigP sig) = 0 := by
  induction evs generalizing s with
  | nil => exact h3
  | cons ev rest ih =>
      cases ev with
      | request e =>
          obtain ⟨a, b, c⟩ := handleRequest_blocked cfg e sig s h1 h2 h3
          exact ih _ a b c
      | response e =>
          obtain ⟨a, b, c⟩ := handleResponse_blocked cfg e sig s h1 h2 h3
          exact ih _ a b c

/-- C9: `clear()` empties the capture list and the pending table but leaves
the seen-pattern set unchanged; a signature seen before `clear()` is never
captured again by the same instance, whatever events follow. -/
theorem c9_clear_keeps_seen (s : IState) (sig : Str) (cfg : InterceptConfig)
    (evs : List NetEvent) (hs : sig ∈ s.seen) :
    (interceptClear s).captured = [] ∧ (interceptClear s).pending = [] ∧
    (interceptClear s).seen = s.seen ∧
    (interceptRun cfg evs (interceptClear s)).captured.countP (capSigP sig) = 0 := by
  refine ⟨rfl, rfl, rfl, ?_⟩
  exact interceptRun_blocked cfg evs sig (interceptClear s) hs (by simp [interceptClear])
    (by simp [interceptClear])

/-- C9 witness: a request repeating an already-seen signature after `clear()`
is still suppressed — nothing with that signature is ever captured. -/
theorem c9_clear_keeps_seen_witness :
    (interceptClear c9state).seen = c9state.seen ∧
    (interceptRun c9cfg c9evs (interceptClear c9state)).captured.countP (capSigP c9sigma) = 0 :=
  ⟨(c9_clear_keeps_seen c9state c9sigma c9cfg c9evs (by decide)).2.2.1,
   (c9_clear_keeps_seen c9state c9sigma c9cfg c9evs (by decide)).2.2.2⟩

theorem crawlPage_fst_le (baseDomain : Str) (maxDepth : Nat) (web : Str → List Str)
    (visited : List Str) (url : Str) (depth : Nat) :
    (crawlPage baseDomain maxDepth web visited url depth).1.length ≤ visited.length + 1 := by
  unfold crawlPage
  by_cases h : normalizeUrl url ∈ visited
  · simp [h]
  · simp [h]

theorem crawlLoop_visited_le (baseDomain : Str) (maxPages maxDepth : Nat)
    (web : Str → List Str) :
    ∀ (fuel : Nat) (s : CrawlState), s.visited.length ≤ maxPages →
      (crawlLoop baseDomain maxPages maxDepth web fuel s).visited.length ≤ maxPages := by
  intro fuel
  induction fuel with
  | zero =>
      intro s h
      exact h
  | succ n ih =>
      intro s h
      cases hf : s.frontier with
      | nil =>
          simp only [crawlLoop, hf]
          exact h
      | cons hd rest =>
          obtain ⟨url, depth⟩ := hd
          simp only [crawlLoop, hf]
          by_cases hlt : s.visited.length < maxPages
          · rw [if_pos hlt]
            by_cases hsv : shouldVisit baseDomain s.visited url = true
            · rw [if_pos hsv]
              apply ih
              have h2 := crawlPage_fst_le baseDomain maxDepth web s.visited url depth
              show (crawlPage baseDomain maxDepth web s.visited url depth).1.length ≤ maxPages
              omega
            · rw [if_neg hsv]
              exact ih _ h
          · rw [if_neg hlt]
            exact h

/-- C2: the crawl loop continues only while the frontier is nonempty and
fewer than `max_pages` pages are visited; a dequeued URL that fails the visit
predicate is skipped without counting against the budget; and however many
links are discovered, at completion
`len(result.pages_visited) <= config.max_pages`. -/
theorem c2_crawl_budget (cfg : CrawlConfig) (web : Str → List Str) :
    (∀ (fuel : Nat) (s : CrawlState),
        s.frontier = [] ∨ cfg.maxPages ≤ s.visited.length →
        crawlLoop (pyUrlparse cfg.startUrl).netloc cfg.maxPages cfg.maxDepth web fuel s = s) ∧
    (∀ (fuel : Nat) (s : CrawlState) (url : Str) (depth : Nat) (rest : List (Str × Nat)),
        s.frontier = (url, depth) :: rest →
        s.visited.length < cfg.maxPages →
        shouldVisit (pyUrlparse cfg.startUrl).netloc s.visited url = false →
        crawlLoop (pyUrlparse cfg.startUrl).netloc cfg.maxPages cfg.maxDepth web (fuel + 1) s =
          crawlLoop (pyUrlparse cfg.startUrl).netloc cfg.maxPages cfg.maxDepth web fuel
            ⟨s.visited, rest⟩) ∧
    (∀ fuel : Nat, (crawlRun cfg web fuel).pagesVisited.length ≤ cfg.maxPages) := by
  refine ⟨?_, ?_, ?_⟩
  · intro fuel s hs
    cases fuel with
    | zero => rfl
    | succ n =>
        cases hf : s.frontier with
        | nil => simp [crawlLoop, hf]
        | cons hd rest =>
            obtain ⟨url, depth⟩ := hd
            rcases hs with hs | hs
            · rw [hf] at hs
              cases hs
            · simp only [crawlLoop, hf]
              rw [if_neg (by omega)]
  · intro fuel s url depth rest hf hlt hsv
    simp only [crawlLoop, hf]
    rw [if_pos hlt, if_neg (by simp [hsv])]
  · intro fuel
    unfold crawlRun
    exact crawlLoop_visited_le _ _ _ _ fuel ⟨[], [(cfg.startUrl, 0)]⟩ (by simp)

/-- C2 witness: a full frontier with a full budget stops immediately; a
dequeued off-origin URL is skipped without counting; a run over a three-link
web stays within `max_pages = 2`. -/
theorem c2_crawl_budget_witness :
    (crawlLoop (pyUrlparse c2cfg.startUrl).netloc c2cfg.maxPages c2cfg.maxDepth c2web 5
        ⟨["https://x/a".data, "https://x/b".data], [("https://x/c".data, 1)]⟩ =
      ⟨["https://x/a".data, "https://x/b".data], [("https://x/c".data, 1)]⟩) ∧
    (crawlLoop (pyUrlparse c2cfg.startUrl).netloc c2cfg.maxPages c2cfg.maxDepth c2web 4
        ⟨[], [("https://other/x".data, 0)]⟩ =
      crawlLoop (pyUrlparse c2cfg.startUrl).netloc c2cfg.maxPages c2cfg.maxDepth c2web 3
        ⟨[], []⟩) ∧
    (crawlRun c2cfg c2web 10).pagesVisited.length ≤ c2cfg.maxPages :=
  ⟨(c2_crawl_budget c2cfg c2web).1 5 _ (Or.inr (by decide)),
   (c2_crawl_budget c2cfg c2web).2.1 3 ⟨[], [("https://other/x".data, 0)]⟩
     "https://other/x".data 0 [] rfl (by decide) (by decide),
   (c2_crawl_budget c2cfg c2web).2.2 10⟩

theorem lexLe_total (a : Str) : ∀ b : Str, lexLe a b = true ∨ lexLe b a = true := by
  induction a with
  | nil =>
      intro b
      left
      rfl
  | cons x xs ih =>
      intro b
      cases b with
      | nil =>
          right
          rfl
      | cons y ys =>
          by_cases hxy : x = y
          · subst hxy
            simp only [lexLe, if_pos rfl]
            exact ih ys
          · simp only [lexLe, if_neg hxy, if_neg (fun hc : y = x => hxy hc.symm)]
            rcases lt_or_gt_of_ne hxy with hlt | hlt
            · left
              exact decide_eq_true hlt
            · right
              exact decide_eq_true hlt

theorem lexLe_trans (a : Str) : ∀ b c : Str,
    lexLe a b = true → lexLe b c = true → lexLe a c = true := by
  induction a with
  | nil =>
      intro b c _ _
      rfl
  | cons x xs ih =>
      intro b c h1 h2
      cases b with
      | nil => simp [lexLe] at h1
      | cons y ys =>
          cases c with
          | nil => simp [lexLe] at h2
          | cons z zs =>
              by_cases hxy : x = y <;> by_cases hyz : y = z
              · subst hxy
                subst hyz
                simp only [lexLe, if_pos rfl] at h1 h2 ⊢
                exact ih ys zs h1 h2
              · subst hxy
                simp only [lexLe, if_pos rfl, if_neg hyz] at h2 ⊢
                exact h2
              · subst hyz
                simp only [lexLe, if_neg hxy] at h1 ⊢
                exact h1
              · simp only [lexLe, if_neg hxy, if_neg hyz] at h1 h2
                have hlt : x < z := lt_trans (of_decide_eq_true h1) (of_decide_eq_true h2)
                simp only [lexLe, if_neg (ne_of_lt hlt)]
                exact decide_eq_true hlt

theorem lexLe_antisymm (a : Str) : ∀ b : Str,
    lexLe a b = true → lexLe b a = true → a = b := by
  induction a with
  | nil =>
      intro b _ h2
      cases b with
      | nil => rfl
      | cons y ys => simp [lexLe] at h2
  | cons x xs ih =>
      intro b h1 h2
      cases b with
      | nil => simp [lexLe] at h1
      | cons y ys =>
          by_cases hxy : x = y
          · subst hxy
            simp only [lexLe, if_pos rfl] at h1 h2
            rw [ih ys h1 h2]
          · simp only [lexLe, if_neg hxy, if_neg (fun hc : y = x => hxy hc.symm)] at h1 h2
            exact absurd (of_decide_eq_true h2) (not_lt_of_gt (of_decide_eq_true h1))

theorem pairLe_total (a b : Str × Str) : pairLe a b = true ∨ pairLe b a = true := by
  unfold pairLe
  by_cases h : a.1 = b.1
  · rw [if_pos h, if_pos h.symm]
    exact lexLe_total a.2 b.2
  · rw [if_neg h, if_neg (fun hc => h hc.symm)]
    exact lexLe_total a.1 b.1

theorem pairLe_trans (a b c : Str × Str) (h1 : pairLe a b = true) (h2 : pairLe b c = true) :
    pairLe a c = true := by
  unfold pairLe at h1 h2 ⊢
  by_cases hab : a.1 = b.1 <;> by_cases hbc : b.1 = c.1
  · rw [if_pos hab] at h1
    rw [if_pos hbc] at h2
    rw [if_pos (hab.trans hbc)]
    exact lexLe_trans _ _ _ h1 h2
  · rw [if_neg hbc] at h2
    rw [if_neg (fun hc => hbc (hab.symm.trans hc)), hab]
    exact h2
  · rw [if_neg hab] at h1
    rw [if_neg (fun hc => hab (hc.trans hbc.symm)), ← hbc]
    exact h1
  · rw [if_neg hab] at h1
    rw [if_neg hbc] at h2
    have hac : a.1 ≠ c.1 := by
      intro hc
      exact hab (lexLe_antisymm a.1 b.1 h1 (hc ▸ h2))
    rw [if_neg hac]
    exact lexLe_trans _ _ _ h1 h2

theorem insSorted_pairwise (le : α → α → Bool)
    (htr : ∀ a b c, le a b = true → le b c = true → le a c = true)
    (hto : ∀ a b, le a b = true ∨ le b a = true) (x : α) :
    ∀ l : List α, l.Pairwise (fun a b => le a b = true) →
      (insSorted le x l).Pairwise (fun a b => le a b = true) ∧
        ∀ y ∈ insSorted le x l, y = x ∨ y ∈ l := by
  intro l
  induction l with
  | nil =>
      intro _
      exact ⟨by simp [insSorted], by simp [insSorted]⟩
  | cons y ys ih =>
      intro h
      rw [List.pairwise_cons] at h
      obtain ⟨hy, hys⟩ := h
      unfold insSorted
      by_cases hxy : le x y = true
      · rw [if_pos hxy]
        refine ⟨?_, ?_⟩
        · rw [List.pairwise_cons]
          refine ⟨?_, List.pairwise_cons.mpr ⟨hy, hys⟩⟩
          intro z hz
          rcases List.mem_cons.mp hz with rfl | hz2
          · exact hxy
          · exact htr x y z hxy (hy z hz2)
        · intro z hz
          rcases List.mem_cons.mp hz with rfl | hz2
          · exact Or.inl rfl
          · exact Or.inr hz2
      · rw [if_neg hxy]
        obtain ⟨ih1, ih2⟩ := ih hys
        refine ⟨?_, ?_⟩
        · rw [List.pairwise_cons]
          refine ⟨?_, ih1⟩
          intro z hz
          rcases ih2 z hz with hzx | hz2
          · rw [hzx]
            rcases hto x y with hc | hc
            · exact absurd hc hxy
            · exact hc
          · exact hy z hz2
        · intro z hz
          rcases List.mem_cons.mp hz with rfl | hz2
          · exact Or.inr (List.mem_cons_self _ _)
          · rcases ih2 z hz2 with hzx | h3
            · exact Or.inl hzx
            · exact Or.inr (List.mem_cons_of_mem _ h3)

theorem insSort_pairwise (le : α → α → Bool)
    (htr : ∀ a b c, le a b = true → le b c = true → le a c = true)
    (hto : ∀ a b, le a b = true ∨ le b a = true) (l : List α) :
    (insSort le l).Pairwise (fun a b => le a b = true) := by
  induction l with
  | nil => simp [insSort]
  | cons x xs ih => exact (insSorted_pairwise le htr hto x (insSort le xs) ih).1

set_option maxRecDepth 100000 in
/-- C6 counterexample: `analyze` is not independent of input order — swapping
two captures of the same pattern changes the inferred `id` parameter example
of the resulting group, so equal-as-sets inputs give different outputs. -/
theorem c6_order_dependent :
    analyzeExamples c6cfg [c6e1, c6e2] ≠ analyzeExamples c6cfg [c6e2, c6e1] := by
  decide

/-- C6 amended: the output order of `analyze` is deterministic — the returned
groups are sorted by `(path_pattern, method.value)`; but the output is not
invariant under permutation of the input list, because each group's examples
and parameters are derived from whichever member is first. -/
theorem c6_analyze_sorted (cfg : AnalyzerConfig) (eps : List CapturedEndpoint) :
    (analyze cfg eps).Pairwise (fun g h => groupLe g h = true) := by
  unfold analyze
  exact insSort_pairwise groupLe
    (fun a b c => pairLe_trans (groupKey a) (groupKey b) (groupKey c))
    (fun a b => pairLe_total (groupKey a) (groupKey b)) _

theorem splitFirst_none_fst (sep : Char) (l : Str) (h : sep ∉ l) :
    splitFirst sep l = (l, none) := by
  induction l with
  | nil => rfl
  | cons c cs ih =>
      have hc : ¬ c = sep := fun e => h (by simp [e])
      have hcs : sep ∉ cs := fun m => h (List.mem_cons_of_mem _ m)
      simp [splitFirst, hc, ih hcs]

theorem splitFirst_none_not_mem (sep : Char) (l : Str)
    (h : (splitFirst sep l).2 = none) : sep ∉ l := by
  induction l with
  | nil => simp
  | cons c cs ih =>
      intro hm
      by_cases hc : c = sep
      · simp [splitFirst, hc] at h
      · simp only [splitFirst, if_neg hc] at h
        rcases List.mem_cons.mp hm with he | hm2
        · exact hc he.symm
        · exact ih h hm2

theorem splitFirst_none_fst_self (sep : Char) (l : Str)
    (h : (splitFirst sep l).2 = none) : (splitFirst sep l).1 = l := by
  rw [splitFirst_none_fst sep l (splitFirst_none_not_mem sep l h)]

theorem splitFirst_some_append (sep : Char) (l m : Str) (r pre : Str)
    (h : splitFirst sep l = (pre, some r)) :
    splitFirst sep (l ++ m) = (pre, some (r ++ m)) := by
  induction l generalizing pre with
  | nil => simp [splitFirst] at h
  | cons c cs ih =>
      by_cases hc : c = sep
      · simp only [splitFirst, if_pos hc] at h
        injection h with h1 h2
        injection h2 with h2
        subst h2
        subst h1
        simp only [List.cons_append, splitFirst, if_pos hc, List.append_eq]
      · simp only [splitFirst, if_neg hc] at h
        cases hl : splitFirst sep cs with
        | mk pre2 o2 =>
            rw [hl] at h
            have h1 : c :: pre2 = pre := congrArg Prod.fst h
            have h2 : o2 = some r := congrArg Prod.snd h
            subst h2
            simp only [List.cons_append, splitFirst, if_neg hc, List.append_eq, ih pre2 hl]
            rw [← h1]

theorem mem_splitFirst_fst (sep : Char) (l : Str) (c : Char)
    (h : c ∈ (splitFirst sep l).1) : c ∈ l := by
  induction l with
  | nil => simp [splitFirst] at h
  | cons d cs ih =>
      by_cases hd : d = sep
      · simp [splitFirst, hd] at h
      · simp only [splitFirst, if_neg hd] at h
        cases hl : splitFirst sep cs with
        | mk pre o =>
            rw [hl] at h
            rcases List.mem_cons.mp h with rfl | h2
            · exact List.mem_cons_self _ _
            · exact List.mem_cons_of_mem _ (ih (by rw [hl]; exact h2))

theorem mem_splitFirst_some (sep : Char) (l : Str) (r : Str)
    (h : (splitFirst sep l).2 = some r) (c : Char) (hc : c ∈ r) : c ∈ l := by
  induction l generalizing r with
  | nil => simp [splitFirst] at h
  | cons d cs ih =>
      by_cases hd : d = sep
      · simp only [splitFirst, if_pos hd] at h
        injection h with h
        subst h
        exact List.mem_cons_of_mem _ hc
      · simp only [splitFirst, if_neg hd] at h
        cases hl : splitFirst sep cs with
        | mk pre o =>
            rw [hl] at h
            exact List.mem_cons_of_mem _ (ih r (by rw [hl]; exact h) hc)

theorem schemeSplit_eq_some (u pre rest : Str) (h : splitFirst ':' u = (pre, some rest)) :
    schemeSplit u =
      if !pre.isEmpty && (pre.headD 'a').isAlpha && pre.all isSchemeChar
      then (lowerStr pre, rest) else ([], u) := by
  unfold schemeSplit
  rw [h]

theorem schemeSplit_eq_none (u pre : Str) (h : splitFirst ':' u = (pre, none)) :
    schemeSplit u = ([], u) := by
  unfold schemeSplit
  rw [h]

theorem schemeSplit_append_slash (u : Str) :
    schemeSplit (u ++ ['/']) = ((schemeSplit u).1, (schemeSplit u).2 ++ ['/']) := by
  cases hs : splitFirst ':' u with
  | mk pre o =>
      cases o with
      | some rest =>
          rw [schemeSplit_eq_some u pre rest hs,
              schemeSplit_eq_some (u ++ ['/']) pre (rest ++ ['/'])
                (splitFirst_some_append ':' u ['/'] rest pre hs)]
          by_cases hc : (!pre.isEmpty && (pre.headD 'a').isAlpha && pre.all isSchemeChar) = true
          · rw [if_pos hc, if_pos hc]
          · rw [if_neg hc, if_neg hc]
      | none =>
          have hnm : ':' ∉ u := splitFirst_none_not_mem ':' u (by rw [hs])
          have hnm2 : ':' ∉ u ++ ['/'] := by
            intro hmem
            rcases List.mem_append.mp hmem with h2 | h2
            · exact hnm h2
            · simp at h2
          rw [schemeSplit_eq_none u pre hs,
              schemeSplit_eq_none (u ++ ['/']) (u ++ ['/'])
                (splitFirst_none_fst ':' (u ++ ['/']) hnm2)]

theorem mem_schemeSplit_snd (u : Str) (c : Char) (h : c ∈ (schemeSplit u).2) : c ∈ u := by
  cases hs : splitFirst ':' u with
  | mk pre o =>
      cases o with
      | some rest =>
          rw [schemeSplit_eq_some u pre rest hs] at h
          by_cases hc : (!pre.isEmpty && (pre.headD 'a').isAlpha && pre.all isSchemeChar) = true
          · rw [if_pos hc] at h
            exact mem_splitFirst_some ':' u rest (by rw [hs]) c h
          · rw [if_neg hc] at h
            exact h
      | none =>
          rw [schemeSplit_eq_none u pre hs] at h
          exact h

theorem takeWhile_of_all (p : Char → Bool) (l : Str) (h : l.all p = true) :
    l.takeWhile p = l := by
  induction l with
  | nil => rfl
  | cons c cs ih =>
      simp only [List.all_cons, Bool.and_eq_true] at h
      simp [List.takeWhile, h.1, ih h.2]

theorem dropWhile_of_all (p : Char → Bool) (l : Str) (h : l.all p = true) :
    l.dropWhile p = [] := by
  induction l with
  | nil => rfl
  | cons c cs ih =>
      simp only [List.all_cons, Bool.and_eq_true] at h
      simp [List.dropWhile, h.1, ih h.2]

theorem takeWhile_append_pos (p : Char → Bool) (l m : Str) (h : l.all p = true) :
    (l ++ m).takeWhile p = l ++ m.takeWhile p := by
  induction l with
  | nil => rfl
  | cons c cs ih =>
      simp only [List.all_cons, Bool.and_eq_true] at h
      simp [List.takeWhile, h.1, ih h.2]

theorem dropWhile_append_pos (p : Char → Bool) (l m : Str) (h : l.all p = true) :
    (l ++ m).dropWhile p = m.dropWhile p := by
  induction l with
  | nil => rfl
  | cons c cs ih =>
      simp only [List.all_cons, Bool.and_eq_true] at h
      simp [List.dropWhile, h.1, ih h.2]

theorem takeWhile_append_neg (p : Char → Bool) (l m : Str) (h : l.all p = false) :
    (l ++ m).takeWhile p = l.takeWhile p := by
  induction l with
  | nil => simp at h
  | cons c cs ih =>
      by_cases hc : p c = true
      · simp only [List.all_cons, hc, Bool.true_and] at h
        simp [List.takeWhile, hc, ih h]
      · have hc2 : p c = false := by
          cases hb : p c
          · rfl
          · exact absurd hb hc
        simp [List.takeWhile, hc2]

theorem dropWhile_append_neg (p : Char → Bool) (l m : Str) (h : l.all p = false) :
    (l ++ m).dropWhile p = l.dropWhile p ++ m := by
  induction l with
  | nil => simp at h
  | cons c cs ih =>
      by_cases hc : p c = true
      · simp only [List.all_cons, hc, Bool.true_and] at h
        simp [List.dropWhile, hc, ih h]
      · have hc2 : p c = false := by
          cases hb : p c
          · rfl
          · exact absurd hb hc
        simp [List.dropWhile, hc2]

theorem mem_dropWhile (p : Char → Bool) (l : Str) (c : Char)
    (h : c ∈ l.dropWhile p) : c ∈ l := by
  induction l with
  | nil => simp [List.dropWhile] at h
  | cons d cs ih =>
      by_cases hd : p d = true
      · simp only [List.dropWhile, hd] at h
        exact List.mem_cons_of_mem _ (ih h)
      · have hd2 : p d = false := by
          cases hb : p d
          · rfl
          · exact absurd hb hd
        simp only [List.dropWhile, hd2] at h
        exact h

theorem netlocSplit_fallback (w : Str) (h : ∀ rest, w ≠ '/' :: '/' :: rest) :
    netlocSplit w = ([], w) := by
  unfold netlocSplit
  split
  · rename_i rest
    exact absurd rfl (h rest)
  · rfl

theorem netlocSplit_slashes (t : Str) :
    netlocSplit ('/' :: '/' :: t) =
      (t.takeWhile (fun c => !netlocDelim c), t.dropWhile (fun c => !netlocDelim c)) := rfl

theorem netlocSplit_append_slash (r : Str) (hne : r ≠ ['/']) :
    netlocSplit (r ++ ['/']) = ((netlocSplit r).1, (netlocSplit r).2 ++ ['/']) := by
  cases r with
  | nil => rfl
  | cons c1 r1 =>
      cases r1 with
      | nil =>
          have hc : c1 ≠ '/' := fun h => hne (by rw [h])
          rw [netlocSplit_fallback [c1] (by intro rest hcon; cases hcon),
              netlocSplit_fallback ([c1] ++ ['/'])
                (by
                  intro rest hcon
                  injection hcon with e1 _
                  exact hc e1)]
      | cons c2 r2 =>
          by_cases h12 : c1 = '/' ∧ c2 = '/'
          · obtain ⟨h1, h2⟩ := h12
            subst h1
            subst h2
            have hform : ('/' :: '/' :: r2) ++ ['/'] = '/' :: '/' :: (r2 ++ ['/']) := rfl
            rw [hform, netlocSplit_slashes, netlocSplit_slashes]
            by_cases hall : r2.all (fun c => !netlocDelim c) = true
            · rw [takeWhile_append_pos _ _ _ hall, dropWhile_append_pos _ _ _ hall,
                  takeWhile_of_all _ _ hall, dropWhile_of_all _ _ hall]
              have e1 : List.takeWhile (fun c => !netlocDelim c) ['/'] = ([] : Str) := rfl
              have e2 : List.dropWhile (fun c => !netlocDelim c) ['/'] = ['/'] := rfl
              rw [e1, e2]
              simp
            · have hall2 : r2.all (fun c => !netlocDelim c) = false := by
                cases hb : r2.all (fun c => !netlocDelim c)
                · rfl
                · exact absurd hb hall
              rw [takeWhile_append_neg _ _ _ hall2, dropWhile_append_neg _ _ _ hall2]
          · have hfb1 : ∀ rest, (c1 :: c2 :: r2) ≠ '/' :: '/' :: rest := by
              intro rest hcon
              injection hcon with e1 e2
              injection e2 with e2 _
              exact h12 ⟨e1, e2⟩
            have hfb2 : ∀ rest, ((c1 :: c2 :: r2) ++ ['/']) ≠ '/' :: '/' :: rest := by
              intro rest hcon
              injection hcon with e1 e2
              injection e2 with e2 _
              exact h12 ⟨e1, e2⟩
            rw [netlocSplit_fallback _ hfb1, netlocSplit_fallback _ hfb2]

theorem mem_netlocSplit_snd (r : Str) (c : Char) (h : c ∈ (netlocSplit r).2) : c ∈ r := by
  cases r with
  | nil => simp [netlocSplit] at h
  | cons c1 r1 =>
      cases r1 with
      | nil =>
          rw [netlocSplit_fallback [c1] (by intro rest hcon; cases hcon)] at h
          exact h
      | cons c2 r2 =>
          by_cases h12 : c1 = '/' ∧ c2 = '/'
          · obtain ⟨h1, h2⟩ := h12
            subst h1
            subst h2
            rw [netlocSplit_slashes] at h
            exact List.mem_cons_of_mem _ (List.mem_cons_of_mem _ (mem_dropWhile _ _ _ h))
          · have hfb1 : ∀ rest, (c1 :: c2 :: r2) ≠ '/' :: '/' :: rest := by
              intro rest hcon
              injection hcon with e1 e2
              injection e2 with e2 _
              exact h12 ⟨e1, e2⟩
            rw [netlocSplit_fallback _ hfb1] at h
            exact h

theorem rstripSlash_append_slash (x : Str) : rstripSlash (x ++ ['/']) = rstripSlash x := by
  unfold rstripSlash
  rw [List.reverse_append]
  rfl

theorem pyUrlsplit_scheme (u : Str) : (pyUrlsplit u).scheme = (schemeSplit u).1 := rfl

theorem pyUrlsplit_netloc (u : Str) :
    (pyUrlsplit u).netloc = (netlocSplit (schemeSplit u).2).1 := rfl

theorem pyUrlsplit_pathRaw (u : Str) :
    (pyUrlsplit u).pathRaw =
      (splitFirst '?' (splitFirst '#' (netlocSplit (schemeSplit u).2).2).1).1 := rfl

theorem pyUrlsplit_query (u : Str) :
    (pyUrlsplit u).query =
      ((splitFirst '?' (splitFirst '#' (netlocSplit (schemeSplit u).2).2).1).2).getD [] := rfl

theorem pyUrlparse_scheme (u : Str) : (pyUrlparse u).scheme = (pyUrlsplit u).scheme := by
  by_cases h : ';' ∈ (pyUrlsplit u).pathRaw
  · simp only [pyUrlparse, if_pos h]
  · simp only [pyUrlparse, if_neg h]

theorem pyUrlparse_netloc (u : Str) : (pyUrlparse u).netloc = (pyUrlsplit u).netloc := by
  by_cases h : ';' ∈ (pyUrlsplit u).pathRaw
  · simp only [pyUrlparse, if_pos h]
  · simp only [pyUrlparse, if_neg h]

theorem pyUrlparse_query (u : Str) : (pyUrlparse u).query = (pyUrlsplit u).query := by
  by_cases h : ';' ∈ (pyUrlsplit u).pathRaw
  · simp only [pyUrlparse, if_pos h]
  · simp only [pyUrlparse, if_neg h]

theorem pyUrlparse_path (u : Str) :
    (pyUrlparse u).path =
      if ';' ∈ (pyUrlsplit u).pathRaw then (splitParams (pyUrlsplit u).pathRaw).1
      else (pyUrlsplit u).pathRaw := by
  by_cases h : ';' ∈ (pyUrlsplit u).pathRaw
  · simp only [pyUrlparse, if_pos h]
  · simp only [pyUrlparse, if_neg h]

theorem normalizeUrl_fields (u : Str) :
    normalizeUrl u =
      rstripSlash
        (if (pyUrlparse u).query.isEmpty then
          (pyUrlparse u).scheme ++ ':' :: '/' :: '/' ::
            ((pyUrlparse u).netloc ++ (pyUrlparse u).path)
        else
          ((pyUrlparse u).scheme ++ ':' :: '/' :: '/' ::
            ((pyUrlparse u).netloc ++ (pyUrlparse u).path)) ++
            '?' :: joinWith '&' (insSort lexLe (splitAll '&' (pyUrlparse u).query))) := rfl

theorem rstrip_scheme_slash (sc nl p : Str) :
    rstripSlash (sc ++ ':' :: '/' :: '/' :: (nl ++ (p ++ ['/']))) =
      rstripSlash (sc ++ ':' :: '/' :: '/' :: (nl ++ p)) := by
  have h : sc ++ ':' :: '/' :: '/' :: (nl ++ (p ++ ['/'])) =
      (sc ++ ':' :: '/' :: '/' :: (nl ++ p)) ++ ['/'] := by
    simp
  rw [h, rstripSlash_append_slash]

/-- C10 amended: for every URL containing no `?` and no `;`, the crawler's
`_normalize_url` maps the URL with an extra trailing slash and the URL
without it to the same visited-set key. (The `;` and `?` exclusions are
forced: `urlparse` splits `;params` off the last path segment, and a
trailing `?` turns the appended slash into a query.) -/
theorem c10_trailing_slash (u : Str) (hq : '?' ∉ u) (hsm : ';' ∉ u) :
    normalizeUrl (u ++ ['/']) = normalizeUrl u := by
  have hS := schemeSplit_append_slash u
  have hS1 : (schemeSplit (u ++ ['/'])).1 = (schemeSplit u).1 := by rw [hS]
  have hS2 : (schemeSplit (u ++ ['/'])).2 = (schemeSplit u).2 ++ ['/'] := by rw [hS]
  have hqr : '?' ∉ (schemeSplit u).2 := fun hm => hq (mem_schemeSplit_snd u '?' hm)
  have hsr : ';' ∉ (schemeSplit u).2 := fun hm => hsm (mem_schemeSplit_snd u ';' hm)
  by_cases hone : (schemeSplit u).2 = ['/']
  · have hv1 : netlocSplit (schemeSplit u).2 = ([], ['/']) := by
      rw [hone]
      exact netlocSplit_fallback ['/'] (by intro rest hcon; cases hcon)
    have hv2 : netlocSplit (schemeSplit (u ++ ['/'])).2 = ([], []) := by
      rw [hS2, hone]
      rfl
    have hPR1 : (pyUrlsplit u).pathRaw = ['/'] := by
      rw [pyUrlsplit_pathRaw, hv1]
      rfl
    have hPR2 : (pyUrlsplit (u ++ ['/'])).pathRaw = [] := by
      rw [pyUrlsplit_pathRaw, hv2]
      rfl
    have hQ1 : (pyUrlsplit u).query = [] := by
      rw [pyUrlsplit_query, hv1]
      rfl
    have hQ2 : (pyUrlsplit (u ++ ['/'])).query = [] := by
      rw [pyUrlsplit_query, hv2]
      rfl
    have hsm1 : ';' ∉ (pyUrlsplit u).pathRaw := by
      rw [hPR1]
      decide
    have hsm2 : ';' ∉ (pyUrlsplit (u ++ ['/'])).pathRaw := by
      rw [hPR2]
      decide
    have hP1 : (pyUrlparse u).path = ['/'] := by
      rw [pyUrlparse_path, if_neg hsm1, hPR1]
    have hP2 : (pyUrlparse (u ++ ['/'])).path = [] := by
      rw [pyUrlparse_path, if_neg hsm2, hPR2]
    rw [normalizeUrl_fields, normalizeUrl_fields, pyUrlparse_query, pyUrlparse_query,
        hQ1, hQ2, pyUrlparse_scheme, pyUrlparse_scheme, pyUrlsplit_scheme, pyUrlsplit_scheme,
        hS1, pyUrlparse_netloc, pyUrlparse_netloc, pyUrlsplit_netloc, pyUrlsplit_netloc,
        hv1, hv2, hP1, hP2]
    simp only [List.isEmpty_nil, if_true, List.nil_append]
    have e : (schemeSplit u).1 ++ ':' :: '/' :: '/' :: ['/'] =
        ((schemeSplit u).1 ++ ':' :: '/' :: '/' :: []) ++ ['/'] := by
      simp
    rw [e, rstripSlash_append_slash]
  · have hN := netlocSplit_append_slash (schemeSplit u).2 hone
    have hN1 : (netlocSplit (schemeSplit (u ++ ['/'])).2).1 =
        (netlocSplit (schemeSplit u).2).1 := by
      rw [hS2, hN]
    have hN2 : (netlocSplit (schemeSplit (u ++ ['/'])).2).2 =
        (netlocSplit (schemeSplit u).2).2 ++ ['/'] := by
      rw [hS2, hN]
    have hqv : '?' ∉ (netlocSplit (schemeSplit u).2).2 :=
      fun hm => hqr (mem_netlocSplit_snd _ '?' hm)
    have hsv : ';' ∉ (netlocSplit (schemeSplit u).2).2 :=
      fun hm => hsr (mem_netlocSplit_snd _ ';' hm)
    cases hfr : splitFirst '#' (netlocSplit (schemeSplit u).2).2 with
    | mk pre o =>
        cases o with
        | some f =>
            have hfr2 : splitFirst '#' (netlocSplit (schemeSplit (u ++ ['/'])).2).2 =
                (pre, some (f ++ ['/'])) := by
              rw [hN2]
              exact splitFirst_some_append '#' _ ['/'] f pre hfr
            have hPR : (pyUrlsplit (u ++ ['/'])).pathRaw = (pyUrlsplit u).pathRaw := by
              rw [pyUrlsplit_pathRaw, pyUrlsplit_pathRaw, hfr, hfr2]
            have hQ : (pyUrlsplit (u ++ ['/'])).query = (pyUrlsplit u).query := by
              rw [pyUrlsplit_query, pyUrlsplit_query, hfr, hfr2]
            have hNL : (pyUrlsplit (u ++ ['/'])).netloc = (pyUrlsplit u).netloc := by
              rw [pyUrlsplit_netloc, pyUrlsplit_netloc, hN1]
            have hSC : (pyUrlsplit (u ++ ['/'])).scheme = (pyUrlsplit u).scheme := by
              rw [pyUrlsplit_scheme, pyUrlsplit_scheme, hS1]
            rw [normalizeUrl_fields, normalizeUrl_fields,
                pyUrlparse_scheme, pyUrlparse_scheme, pyUrlparse_netloc, pyUrlparse_netloc,
                pyUrlparse_query, pyUrlparse_query, pyUrlparse_path, pyUrlparse_path,
                hPR, hQ, hNL, hSC]
        | none =>
            have hnm : '#' ∉ (netlocSplit (schemeSplit u).2).2 :=
              splitFirst_none_not_mem '#' _ (by rw [hfr])
            have hfst : pre = (netlocSplit (schemeSplit u).2).2 := by
              have h2 := splitFirst_none_fst '#' _ hnm
              rw [hfr] at h2
              exact congrArg Prod.fst h2
            have hnm2 : '#' ∉ (netlocSplit (schemeSplit u).2).2 ++ ['/'] := by
              intro hmem
              rcases List.mem_append.mp hmem with h2 | h2
              · exact hnm h2
              · simp at h2
            have hfr2 : splitFirst '#' (netlocSplit (schemeSplit (u ++ ['/'])).2).2 =
                ((netlocSplit (schemeSplit u).2).2 ++ ['/'], none) := by
              rw [hN2]
              exact splitFirst_none_fst '#' _ hnm2
            have hq1 : splitFirst '?' (netlocSplit (schemeSplit u).2).2 =
                ((netlocSplit (schemeSplit u).2).2, none) := splitFirst_none_fst '?' _ hqv
            have hq2 : splitFirst '?' ((netlocSplit (schemeSplit u).2).2 ++ ['/']) =
                ((netlocSplit (schemeSplit u).2).2 ++ ['/'], none) := by
              apply splitFirst_none_fst
              intro hmem
              rcases List.mem_append.mp hmem with h2 | h2
              · exact hqv h2
              · simp at h2
            have hPR1 : (pyUrlsplit u).pathRaw = (netlocSplit (schemeSplit u).2).2 := by
              rw [pyUrlsplit_pathRaw, hfr, hfst, hq1]
            have hPR2 : (pyUrlsplit (u ++ ['/'])).pathRaw =
                (netlocSplit (schemeSplit u).2).2 ++ ['/'] := by
              rw [pyUrlsplit_pathRaw, hfr2, hq2]
            have hQ1 : (pyUrlsplit u).query = [] := by
              rw [pyUrlsplit_query, hfr, hfst, hq1]
              rfl
            have hQ2 : (pyUrlsplit (u ++ ['/'])).query = [] := by
              rw [pyUrlsplit_query, hfr2, hq2]
              rfl
            have hsm1 : ';' ∉ (pyUrlsplit u).pathRaw := by
              rw [hPR1]
              exact hsv
            have hsm2 : ';' ∉ (pyUrlsplit (u ++ ['/'])).pathRaw := by
              rw [hPR2]
              intro hmem
              rcases List.mem_append.mp hmem with h2 | h2
              · exact hsv h2
              · simp at h2
            have hP1 : (pyUrlparse u).path = (netlocSplit (schemeSplit u).2).2 := by
              rw [pyUrlparse_path, if_neg hsm1, hPR1]
            have hP2 : (pyUrlparse (u ++ ['/'])).path =
                (netlocSplit (schemeSplit u).2).2 ++ ['/'] := by
              rw [pyUrlparse_path, if_neg hsm2, hPR2]
            rw [normalizeUrl_fields, normalizeUrl_fields, pyUrlparse_query, pyUrlparse_query,
                hQ1, hQ2, pyUrlparse_scheme, pyUrlparse_scheme, pyUrlsplit_scheme,
                pyUrlsplit_scheme, hS1, pyUrlparse_netloc, pyUrlparse_netloc,
                pyUrlsplit_netloc, pyUrlsplit_netloc, hN1, hP1, hP2]
            simp only [List.isEmpty_nil, if_true]
            exact rstrip_scheme_slash (schemeSplit u).1 (netlocSplit (schemeSplit u).2).1
              (netlocSplit (schemeSplit u).2).2

/-- C10 counterexample: `https://x/a;p` has no query string, yet adding a
trailing slash changes the normalized key — `urlparse` splits the `;p` params
off the last path segment only when no slash follows it, so the two URLs do
not collapse to one visited entry. -/
theorem c10_semicolon_counterexample :
    (pyUrlparse "https://x/a;p".data).query = [] ∧
    normalizeUrl ("https://x/a;p".data ++ ['/']) ≠ normalizeUrl "https://x/a;p".data :=
  ⟨by decide, by decide⟩

/-- C10 witness: a plain URL and its trailing-slash variant share one key. -/
theorem c10_trailing_slash_witness :
    normalizeUrl ("https://x/a".data ++ ['/']) = normalizeUrl "https://x/a".data :=
  c10_trailing_slash "https://x/a".data (by decide) (by decide)

end Hunter
